import Mathlib

/-!
Verification development for the AI-powered rota generator
(`schedule.py`: `generate_monthly_assignments`, `build_team_hierarchy_mapping`,
`validate_schedule_programmatically`, `fix_schedule_with_ai`).

The Python code is shallowly embedded: pure data is modelled by inductive
types, Python dicts by insertion-ordered association lists (updates keep the
original position, as Python dicts do), machine integers by `Nat`/`Int`, and
code that can raise by `Except`/`Option`.  Violation messages, which the code
builds as f-strings of the form "Rule N violated: ...", are modelled by a
structured `Violation` type carrying exactly the data interpolated into the
message; the code's substring test for core rules ("Rule 1 violated:" in v,
etc.) becomes a test on the constructor.
-/

/-- `Designation` rows: title plus company-wide hierarchy level
(lower number = more senior). -/
structure Designation where
  title : String
  hierarchy_level : Nat
deriving DecidableEq

/-- `Employee` rows as seen by the scheduler (`m.employee` for the team's
members): database id, name, and designation. -/
structure Employee where
  id : Nat
  name : String
  designation : Designation
deriving DecidableEq

/-- Team configuration.  `members` is the flattened list
`[m.employee for m in team.members]` in membership order. -/
structure Team where
  name : String
  shift_template : String
  people_per_shift : Nat
  members : List Employee

/-- One entry of `team_hierarchy_info` as built by
`extract_team_hierarchy_info`. -/
structure EmpInfo where
  name : String
  hierarchy_level : Nat
  designation : String
  employee_id : Nat
deriving DecidableEq

/-- A violation produced by `validate_schedule_programmatically`.  The Python
code emits strings; each constructor carries the data interpolated into the
corresponding f-string ("Rule N violated: ...").  `diagnostic` stands for the
two non-rule messages ("No team hierarchy information provided" and
"Programmatic validation error: ..."). -/
inductive Violation where
  | rule1 (emp : String) (company_level team_rank : Nat) (shift start_month end_month : String)
      (run_length limit : Nat)
  | rule2 (emp : String) (company_level : Nat) (month : String)
  | rule3 (emp : String) (month1 month2 : String)
  | rule4 (shift month : String) (count expected : Nat)
  | rule5 (shift month : String) (team_rank : Nat) (staff : List String)
  | diagnostic (msg : String)
deriving DecidableEq

/-- The test `"Rule 1 violated:" in v or "Rule 2 violated:" in v or
"Rule 3 violated:" in v` used by `fix_schedule_with_ai` and
`validate_schedule_with_ai_exact`: in the structured model a violation is a
core-rule violation iff it was built by one of the rule-1/2/3 constructors. -/
def Violation.isCore : Violation → Bool
  | .rule1 .. => true
  | .rule2 .. => true
  | .rule3 .. => true
  | _ => false

/-- Validation report: `{is_valid, violations, validation_notes}`. -/
structure Report where
  is_valid : Bool
  violations : List Violation
  validation_notes : String

/-! ### JSON values

`validate_schedule_programmatically` receives the schedule as a parsed JSON
document (a Python dict tree); malformed documents make the traversal raise,
and the surrounding `try/except` turns any exception into a single-violation
report.  `Json` models the parsed document. -/

inductive Json where
  | null
  | bool (b : Bool)
  | num (n : Int)
  | str (s : String)
  | arr (items : List Json)
  | obj (fields : List (String × Json))

/-! ### build_team_hierarchy_mapping -/

/-- `sorted(set(emp['hierarchy_level'] for emp in team_hierarchy_info))`. -/
def teamLevels (info : List EmpInfo) : List Nat :=
  ((info.map (fun e => e.hierarchy_level)).dedup).insertionSort (· ≤ ·)

/-- The `level_to_team_rank` dict: `for i, company_level in
enumerate(team_levels): level_to_team_rank[company_level] = i + 1`. -/
def levelRankAssoc (levels : List Nat) : List (Nat × Nat) :=
  levels.enum.map (fun p => (p.2, p.1 + 1))

/-- Lookup in `level_to_team_rank` (levels present in the team always hit). -/
def levelToTeamRank (levels : List Nat) (lvl : Nat) : Nat :=
  ((levelRankAssoc levels).lookup lvl).getD 0

/-- The `team_rank_to_stability` dict built over `enumerate(team_levels)`:
rank 1 gets 3 months, rank 2 gets 2 months, every other rank 1 month. -/
def teamRankToStability (rank : Nat) : Nat :=
  if rank = 1 then 3 else if rank = 2 then 2 else 1

/-- One value of the `employee_mapping` dict of the validator. -/
structure EmpMapData where
  company_level : Nat
  team_rank : Nat
  stability_months : Nat
  designation : String
deriving DecidableEq

/-- Insertion-ordered dict update: overwrite in place if the key is present,
append otherwise (Python dict assignment semantics). -/
def upsertAssoc {α β : Type} [DecidableEq α] (k : α) (v : β) :
    List (α × β) → List (α × β)
  | [] => [(k, v)]
  | (k2, v2) :: rest =>
      if k2 = k then (k2, v) :: rest else (k2, v2) :: upsertAssoc k v rest

/-- The validator's `employee_mapping`: name → company level, team rank,
stability months, designation. -/
def employeeMapping (info : List EmpInfo) : List (String × EmpMapData) :=
  info.foldl
    (fun acc e =>
      let rank := levelToTeamRank (teamLevels info) e.hierarchy_level
      upsertAssoc e.name
        ⟨e.hierarchy_level, rank, teamRankToStability rank, e.designation⟩ acc)
    []

/-! ### Typed schedule documents

The validator only ever reads the `name` field of staff entries, the
`assigned_staff` and `floaters` lists of each shift, and the month/shift
keys; a well-formed document decodes to this shape. -/

/-- Per-shift data as read by the validator (staff member names). -/
structure VShift where
  assigned_staff : List String
  floaters : List String
deriving DecidableEq

/-- One month: insertion-ordered shift-name → shift-data dict. -/
abbrev VMonth := List (String × VShift)

/-- A schedule document: insertion-ordered month-label → month dict. -/
abbrev VSchedule := List (String × VMonth)

/-- Role a person holds in a month (the `'role'` field of the tracking). -/
inductive Role where
  | assigned
  | floater
deriving DecidableEq

/-- The per-month tracking record `{'role': ..., 'shift': ...}`. -/
structure RoleShift where
  role : Role
  shift : String
deriving DecidableEq

/-- `employee_tracking[emp_name]`: month → role/shift, insertion ordered. -/
abbrev MonthMap := List (String × RoleShift)

/-- The `employee_tracking` dict: employee name → month map. -/
abbrev Tracking := List (String × MonthMap)

/-- `employee_tracking[emp_name][month_name] = {'role': r, 'shift': s}`. -/
def trackAssign (emp month : String) (rs : RoleShift) : Tracking → Tracking
  | [] => [(emp, [(month, rs)])]
  | (e, mm) :: rest =>
      if e = emp then (e, upsertAssoc month rs mm) :: rest
      else (e, mm) :: trackAssign emp month rs rest

/-- Traversal state: inferred `people_per_shift`, violations so far,
tracking so far. -/
structure TravState where
  pps : Option Nat
  viols : List Violation
  track : Tracking

/-- Body of the per-shift traversal: rule-4 and rule-5 checks, then the
tracking updates for assigned staff and floaters. -/
def processShift (mapping : List (String × EmpMapData)) (numRanks : Nat)
    (month shift : String) (sd : VShift) (st : TravState) : TravState :=
  let staff := sd.assigned_staff
  -- if people_per_shift is None and assigned_staff: infer it
  let pps2 : Option Nat :=
    if st.pps = none ∧ staff ≠ [] then some staff.length else st.pps
  -- Rule 4: if people_per_shift and len(assigned_staff) != people_per_shift
  let v4 : List Violation :=
    match pps2 with
    | some p => if p ≠ 0 ∧ staff.length ≠ p then [.rule4 shift month staff.length p] else []
    | none => []
  -- Rule 5: all staff share a single team rank while several ranks exist
  let ranksInShift := (staff.filterMap (fun nm => (mapping.lookup nm).map (fun d => d.team_rank))).dedup
  let v5 : List Violation :=
    if 1 < staff.length ∧ ranksInShift.length = 1 ∧ 1 < numRanks then
      [.rule5 shift month (ranksInShift.headD 0) staff]
    else []
  let tr1 := staff.foldl (fun t nm => trackAssign nm month ⟨.assigned, shift⟩ t) st.track
  let tr2 := sd.floaters.foldl (fun t nm => trackAssign nm month ⟨.floater, shift⟩ t) tr1
  ⟨pps2, st.viols ++ v4 ++ v5, tr2⟩

/-- The "build tracking data" loop over months and shifts. -/
def traverseSchedule (mapping : List (String × EmpMapData)) (numRanks : Nat)
    (sched : VSchedule) : TravState :=
  sched.foldl
    (fun st p => p.2.foldl (fun st q => processShift mapping numRanks p.1 q.1 q.2 st) st)
    ⟨none, [], []⟩

/-- Rule 2: a team-rank-1 employee appears as floater (one violation per
occurrence, in month order). -/
def rule2Violations (mapping : List (String × EmpMapData)) (tr : Tracking) :
    List Violation :=
  tr.flatMap (fun p =>
    match mapping.lookup p.1 with
    | none => []
    | some d =>
        if d.team_rank = 1 then
          p.2.filterMap (fun q =>
            if q.2.role = .floater then some (.rule2 p.1 d.company_level q.1) else none)
        else [])

/-- First pair of consecutive indices in a sorted index list (the rule-3 loop
`break`s after the first adjacent pair). -/
def firstAdjacentPair : List Nat → Option (Nat × Nat)
  | a :: b :: rest => if b - a = 1 then some (a, b) else firstAdjacentPair (b :: rest)
  | _ => none

/-- Rule 3: an employee floats in two adjacent months (first detected pair
per employee only). -/
def rule3Violations (monthNames : List String) (tr : Tracking) : List Violation :=
  tr.flatMap (fun p =>
    let floaterMonths := monthNames.filter (fun m =>
      match p.2.lookup m with
      | some rs => rs.role = .floater
      | none => false)
    if 1 < floaterMonths.length then
      let idxs := (floaterMonths.map (fun m => monthNames.indexOf m)).insertionSort (· ≤ ·)
      match firstAdjacentPair idxs with
      | some (a, b) => [.rule3 p.1 (monthNames.getD a "") (monthNames.getD b "")]
      | none => []
    else [])

/-- The employee's `(month, shift)` pairs, restricted to months where the
role is `assigned_staff`, in schedule month order. -/
def assignedShiftsOf (monthNames : List String) (mm : MonthMap) :
    List (String × String) :=
  monthNames.filterMap (fun m =>
    match mm.lookup m with
    | some rs => if rs.role = .assigned then some (m, rs.shift) else none
    | none => none)

/-- The `consecutive_periods` loop of the validator: extend the current
period while the shift is unchanged, flush it (if longer than one month)
when the shift changes, and flush the final period at the end. -/
def collectPeriods (cur : List (String × String)) :
    List (String × String) → List (List (String × String))
  | [] => if 1 < cur.length then [cur] else []
  | (m, s) :: rest =>
      match cur.getLast? with
      | none => collectPeriods [(m, s)] rest
      | some last =>
          if last.2 = s then collectPeriods (cur ++ [(m, s)]) rest
          else (if 1 < cur.length then [cur] else []) ++ collectPeriods [(m, s)] rest

/-- The rule-1 violation for one period: employee, company level, team rank,
shift, start month, end month, period length, stability limit (the code has
two f-string variants for length 2 and length > 2; both interpolate exactly
these values). -/
def mkRule1 (nm : String) (d : EmpMapData) (p : List (String × String)) : Violation :=
  .rule1 nm d.company_level d.team_rank (p.headD ("", "")).2 (p.headD ("", "")).1
    (p.getLastD ("", "")).1 p.length d.stability_months

/-- Rule-1 violations for one tracked employee. -/
def rule1ViolationsFor (monthNames : List String) (nm : String) (d : EmpMapData)
    (mm : MonthMap) : List Violation :=
  (collectPeriods [] (assignedShiftsOf monthNames mm)).filterMap
    (fun p => if d.stability_months < p.length then some (mkRule1 nm d p) else none)

/-- Rule 1 over the whole tracking (employees missing from the mapping are
skipped, as in the code). -/
def rule1Violations (mapping : List (String × EmpMapData)) (monthNames : List String)
    (tr : Tracking) : List Violation :=
  tr.flatMap (fun p =>
    match mapping.lookup p.1 with
    | none => []
    | some d => rule1ViolationsFor monthNames p.1 d p.2)

/-- The validator body on a well-typed (successfully traversed) document with
hierarchy info present: rule 4/5 violations are appended during traversal,
then rule 2, rule 3, and rule 1 violations, in that order;
`is_valid = len(violations) == 0`. -/
def validateTyped (sched : VSchedule) (info : List EmpInfo) : Report :=
  let mapping := employeeMapping info
  let monthNames := sched.map (fun p => p.1)
  let t := traverseSchedule mapping (teamLevels info).length sched
  let viols := t.viols ++ rule2Violations mapping t.track
      ++ rule3Violations monthNames t.track
      ++ rule1Violations mapping monthNames t.track
  ⟨viols.isEmpty, viols, "Consolidated validation - no duplicates."⟩

/-! ### Decoding a JSON document

The Python traversal raises (`AttributeError`, `TypeError`, `KeyError`) as
soon as the document deviates from the month → shift → staff-lists shape, and
the `try/except` turns the exception into a single diagnostic violation.
`decodeSchedule` performs the same shape checks up front: it succeeds exactly
on the documents the traversal accepts, and reports the exception message
otherwise. -/

def decodeStaffName : Json → Except String String
  | .obj fs =>
      match fs.lookup "name" with
      | some (.str s) => .ok s
      | some _ => .error "staff name is not a string"
      | none => .error "KeyError: name"
  | _ => .error "staff entry is not an object"

def decodeStaffList (j : Json) : Except String (List String) :=
  match j with
  | .arr items => items.mapM decodeStaffName
  | _ => .error "staff list is not an array"

def decodeShift : Json → Except String VShift
  | .obj fs => do
      let a ← decodeStaffList ((fs.lookup "assigned_staff").getD (.arr []))
      let f ← decodeStaffList ((fs.lookup "floaters").getD (.arr []))
      pure ⟨a, f⟩
  | _ => .error "shift data is not an object"

def decodeMonth : Json → Except String VMonth
  | .obj fs => fs.mapM (fun p => (decodeShift p.2).map (fun s => (p.1, s)))
  | _ => .error "month data is not an object"

def decodeSchedule : Json → Except String VSchedule
  | .obj fs => fs.mapM (fun p => (decodeMonth p.2).map (fun m => (p.1, m)))
  | _ => .error "schedule is not a dict"

/-- `validate_schedule_programmatically(schedule_data, team_hierarchy_info)`.
Missing hierarchy info is reported first (as in the code, where that check
precedes the traversal); any traversal exception yields the single
"Programmatic validation error" diagnostic via the `except` clause.  The
function is total: validation never raises. -/
def validate_schedule_programmatically (schedule_data : Json)
    (team_hierarchy_info : List EmpInfo) : Report :=
  if team_hierarchy_info.isEmpty then
    ⟨false, [.diagnostic "No team hierarchy information provided"],
      "Cannot validate without team hierarchy data"⟩
  else
    match decodeSchedule schedule_data with
    | .error e =>
        ⟨false, [.diagnostic ("Programmatic validation error: " ++ e)],
          "Error during validation"⟩
    | .ok sched => validateTyped sched team_hierarchy_info

/-! ### fix_schedule_with_ai

The external generative-AI call is modelled by an oracle value of type
`AiOutcome` passed as an argument: `failure` stands for any exception raised
while calling the model or JSON-decoding its answer, `response` for a parsed
answer.  Everything after the call is deterministic in the answer. -/

/-- One entry of the AI's `changes_made` list; absent keys are `none`
(the code reads them with `.get`). -/
structure AiChange where
  employee1 : Option String
  month1 : Option String
  shift1_from : Option String
  shift1_to : Option String
  employee2 : Option String
  month2 : Option String
  shift2_from : Option String
  shift2_to : Option String
  reasoning : Option String

/-- A parsed AI answer (`ai_result`). -/
structure AiResponse where
  fixes_possible : Bool
  schedule : Option Json
  changes_made : List AiChange
  explanation : Option String

/-- The outcome of consulting the AI. -/
inductive AiOutcome where
  | failure (msg : String)
  | response (r : AiResponse)

/-- A change record prepared for the frontend. -/
structure FrontendChange where
  month : Option String
  shift : Option String
  sectionName : String
  action : String
  employee : Option String
  from_shift : Option String
  reason : String

/-- The return value of `fix_schedule_with_ai`: either
`({"error": msg}, False)` or the success dict paired with `True`. -/
inductive FixReturn where
  | failure (msg : String)
  | success (schedule : Json) (changes_made : List FrontendChange)
      (violations_fixed violations_remaining : List Violation) (message : String)

/-- Python truthiness of a JSON value (`if not fixed_schedule`). -/
def isFalsyJson : Json → Bool
  | .null => true
  | .bool b => !b
  | .num n => n = 0
  | .str s => s = ""
  | .arr items => items.isEmpty
  | .obj fields => fields.isEmpty

/-- The `changes_for_frontend` loop: one record per change, plus a second
record when `employee2` is truthy (a swap). -/
def frontendChangesOf (changes : List AiChange) : List FrontendChange :=
  changes.flatMap (fun c =>
    let c1 : FrontendChange :=
      ⟨c.month1, c.shift1_to, "assigned_staff", "moved", c.employee1, c.shift1_from,
        c.reasoning.getD "Schedule optimization"⟩
    if (c.employee2.getD "") ≠ "" then
      [c1, ⟨c.month2.or c.month1, c.shift2_to, "assigned_staff", "moved", c.employee2,
        c.shift2_from, "Swapped with " ++ c.employee1.getD "None"⟩]
    else [c1])

/-- `success_message` of the acceptance branch. -/
def fixSuccessMessage (fixed remaining : List Violation) : String :=
  let base := "AI successfully fixed " ++ toString fixed.length ++ " violation(s)"
  if remaining.isEmpty then base ++ ". Schedule is now fully compliant!"
  else base ++ ", " ++ toString remaining.length ++ " issue(s) still require manual intervention"

/-- `fix_schedule_with_ai(broken_schedule_data, violations_list, rules_text,
api_key, team_hierarchy_info)`.  `rules_text` never influences the result and
is omitted; `has_api_key` models the truthiness of `api_key`; `ai` is the
oracle for the external call.  The returned pair `(dict, bool)` is modelled
by `FixReturn`. -/
def fix_schedule_with_ai (broken_schedule_data : Json) (violations_list : List Violation)
    (team_hierarchy_info : List EmpInfo) (has_api_key : Bool) (ai : AiOutcome) : FixReturn :=
  if team_hierarchy_info.isEmpty ∨ has_api_key = false then
    .failure "Missing team hierarchy information or API key"
  else
    let current_schedule := broken_schedule_data
    -- Filter to only REAL violations (Rule 1, 2, 3)
    let real_violations := violations_list.filter (fun v => v.isCore)
    if real_violations.isEmpty then
      .success current_schedule [] [] [] "No valid violations found to fix"
    else
      match ai with
      | .failure msg => .failure ("AI processing failed: " ++ msg)
      | .response r =>
          if r.fixes_possible = false then
            .success current_schedule [] [] real_violations
              (r.explanation.getD "AI could not find valid fixes")
          else
            match r.schedule with
            | none => .failure "AI did not provide a fixed schedule"
            | some fixed_schedule =>
                if isFalsyJson fixed_schedule then
                  .failure "AI did not provide a fixed schedule"
                else
                  -- Verify the AI's changes are valid by re-validating
                  let validation_result :=
                    validate_schedule_programmatically fixed_schedule team_hierarchy_info
                  let original_violation_count := real_violations.length
                  let new_violation_count :=
                    (validation_result.violations.filter (fun v => v.isCore)).length
                  if original_violation_count < new_violation_count then
                    .success current_schedule [] [] real_violations
                      "AI attempted fixes but they would create new violations. Manual intervention required."
                  else
                    let remaining_violations :=
                      validation_result.violations.filter (fun v => v.isCore)
                    let fixed_violations :=
                      real_violations.filter (fun v => ¬ v ∈ remaining_violations)
                    .success fixed_schedule (frontendChangesOf r.changes_made)
                      fixed_violations remaining_violations
                      (fixSuccessMessage fixed_violations remaining_violations)

/-! ### generate_monthly_assignments

`random.shuffle` is modelled as an arbitrary permutation driven by a stream
of numbers supplied by the caller (`rand month attempt draw`): the element at
position `r k % length` is selected next and removed.  Every choice of stream
yields a permutation of the input, which is the specification of a shuffle;
theorems quantify over the stream.  `datetime.today()` is modelled by the
explicit `start_year`/`start_month` arguments. -/

/-- Per-employee scheduler state (`employee_states[emp.id]`). -/
structure EmpState where
  months_since_floater : Nat
  last_shift : Option String
  months_on_current_shift : Nat
  current_shift : Option String
  hierarchy_level : Nat
  name : String
  designation_title : String
  was_floater_last_month : Bool

/-- The `employee_states` dict, keyed by employee id. -/
def States : Type := Nat → EmpState

def setState (st : States) (id : Nat) (v : EmpState) : States :=
  fun i => if i = id then v else st i

def initState (e : Employee) : EmpState :=
  ⟨999, none, 0, none, e.designation.hierarchy_level, e.name, e.designation.title, false⟩

def initStates (emps : List Employee) : States :=
  emps.foldl (fun st e => setState st e.id (initState e))
    (fun _ => ⟨999, none, 0, none, 0, "", "", false⟩)

/-- `SHIFT_DESIRABILITY_ORDER` (line 67 of `schedule.py`). -/
def SHIFT_DESIRABILITY_ORDER : List String :=
  ["Morning", "Afternoon", "Evening", "Night", "Early Morning"]

/-- `team_shifts_map`. -/
def teamShiftsMap : List (String × List String) :=
  [("3-shift", ["Morning", "Afternoon", "Night"]),
   ("4-shift", ["Morning", "Afternoon", "Evening", "Night"]),
   ("5-shift", ["Early Morning", "Morning", "Afternoon", "Evening", "Night"])]

def shiftsInTemplate (team : Team) : List String :=
  (teamShiftsMap.lookup team.shift_template).getD []

/-- `desirable_shifts = [s for s in SHIFT_DESIRABILITY_ORDER if s in shifts_in_template]`. -/
def desirableShiftsOf (team : Team) : List String :=
  SHIFT_DESIRABILITY_ORDER.filter (fun s => s ∈ shiftsInTemplate team)

/-- `sorted([m.employee for m in team.members], key=hierarchy_level)` —
Python's sort is stable, as is insertion sort. -/
def sortedEmployees (team : Team) : List Employee :=
  team.members.insertionSort
    (fun a b => a.designation.hierarchy_level ≤ b.designation.hierarchy_level)

/-- `sorted(hierarchy_groups.keys())`: the distinct hierarchy levels,
ascending. -/
def distinctLevelsOf (emps : List Employee) : List Nat :=
  ((emps.map (fun e => e.designation.hierarchy_level)).dedup).insertionSort (· ≤ ·)

/-- `STABILITY_CONFIG`: built over `enumerate(distinct_hierarchy_levels)` —
position 0 gets 3 months, position 1 gets 2, the rest 1. -/
def stabilityConfigOf (levels : List Nat) : List (Nat × Nat) :=
  levels.enum.map (fun p => (p.2, if p.1 = 0 then 3 else if p.1 = 1 then 2 else 1))

/-- The fixed configuration of one generation run. -/
structure GenCtx where
  all_employees : List Employee
  people_per_shift : Nat
  desirable_shifts : List String
  num_shifts : Nat
  required_for_fixed : Nat
  num_floaters : Nat
  top_hierarchy_level : Nat
  distinct_hierarchy_levels : List Nat
  stability_config : List (Nat × Nat)
  start_year : Nat
  start_month : Nat
  rand : Nat → Nat → Nat → Nat

def mkGenCtx (team : Team) (startYear startMonth : Nat)
    (rand : Nat → Nat → Nat → Nat) : GenCtx :=
  let all := sortedEmployees team
  let levels := distinctLevelsOf all
  let ds := desirableShiftsOf team
  { all_employees := all
    people_per_shift := team.people_per_shift
    desirable_shifts := ds
    num_shifts := ds.length
    required_for_fixed := ds.length * team.people_per_shift
    num_floaters := all.length - ds.length * team.people_per_shift
    top_hierarchy_level := levels.headD 0
    distinct_hierarchy_levels := levels
    stability_config := stabilityConfigOf levels
    start_year := startYear
    start_month := startMonth
    rand := rand }

/-- `floater_candidates`: Rule 2 — exclude the top hierarchy level. -/
def floaterCandidates (ctx : GenCtx) : List Employee :=
  ctx.all_employees.filter
    (fun e => e.designation.hierarchy_level ≠ ctx.top_hierarchy_level)

/-- `eligible_floaters`: Rule 3 — exclude anyone who was floater last month. -/
def eligibleFloaters (ctx : GenCtx) (st : States) : List Employee :=
  (floaterCandidates ctx).filter
    (fun e => (st e.id).was_floater_last_month = false)

/-- The eligible list after the backfill step: if too few, extend with just
enough candidates who floated last month. -/
def extendedEligible (ctx : GenCtx) (st : States) : List Employee :=
  let el := eligibleFloaters ctx st
  if el.length < ctx.num_floaters then
    el ++ ((floaterCandidates ctx).filter (fun e => ¬ e ∈ el)).take
      (ctx.num_floaters - el.length)
  else el

/-- The sort key of the floater sort: ascending `(-months_since_floater,
hierarchy_level)` — i.e. months-since-floater descending, then hierarchy
level ascending. -/
def floaterKeyLe (st : States) (a b : Employee) : Prop :=
  (st b.id).months_since_floater < (st a.id).months_since_floater ∨
  ((st a.id).months_since_floater = (st b.id).months_since_floater ∧
    a.designation.hierarchy_level ≤ b.designation.hierarchy_level)

instance (st : States) : DecidableRel (floaterKeyLe st) := fun a b => by
  unfold floaterKeyLe; exact inferInstance

/-- `active_floaters = eligible_floaters[:num_floaters]` after the (stable)
sort; empty when `num_floaters == 0`. -/
def activeFloaters (ctx : GenCtx) (st : States) : List Employee :=
  if 0 < ctx.num_floaters then
    ((extendedEligible ctx st).insertionSort (floaterKeyLe st)).take ctx.num_floaters
  else []

/-- The floater-state update: `was_floater_last_month = (emp in active)`,
`months_since_floater` reset to 0 for chosen floaters, incremented for
everyone else. -/
def updateFloaterStates (ctx : GenCtx) (active : List Employee) (st : States) : States :=
  ctx.all_employees.foldl
    (fun st e =>
      let s := st e.id
      if e ∈ active then
        setState st e.id
          { s with was_floater_last_month := true, months_since_floater := 0 }
      else
        setState st e.id
          { s with was_floater_last_month := false,
                   months_since_floater := s.months_since_floater + 1 })
    st

/-- `monthly_floater_map`: floater `i` goes to shift `i % num_shifts`
(round-robin in selection order; shift `j` receives, in order, the floaters
whose index is congruent to `j`). -/
def floaterMapOf (ctx : GenCtx) (active : List Employee) :
    List (String × List Employee) :=
  ctx.desirable_shifts.enum.map (fun p =>
    (p.2, (active.enum.filter (fun q => q.1 % ctx.num_shifts = p.1)).map (fun q => q.2)))

/-- `_calculate_assignment_score` (the `hierarchy_groups` argument is unused
in the Python body and omitted). -/
def calculateAssignmentScore (emp : Employee) (shift_name : String)
    (current_shift_employees : List Employee) (st : States)
    (stability_config : List (Nat × Nat)) : Int :=
  let emp_state := st emp.id
  let level := emp.designation.hierarchy_level
  let stability_months := (stability_config.lookup level).getD 1
  let stabilityScore : Int :=
    if stability_months = 1 then
      if emp_state.last_shift = some shift_name then -1000 else 0
    else if stability_months ≤ emp_state.months_on_current_shift then
      if emp_state.current_shift = some shift_name then -1000 else 0
    else if emp_state.current_shift = some shift_name then 100 else 0
  let diversityScore : Int :=
    if current_shift_employees ≠ [] ∧
        ¬ level ∈ current_shift_employees.map (fun e => e.designation.hierarchy_level)
    then 50 else 0
  stabilityScore + diversityScore + (10 - (current_shift_employees.length : Int)) * 10

/-- The best-employee search: first employee with a strictly larger score
than all before it, starting from `best_score = -1`. -/
def pickBest (avail : List Employee) (shift_name : String) (cur : List Employee)
    (st : States) (cfg : List (Nat × Nat)) : Option Employee :=
  (avail.foldl
    (fun acc e =>
      let s := calculateAssignmentScore e shift_name cur st cfg
      if acc.2 < s then (some e, s) else acc)
    ((none : Option Employee), (-1 : Int))).1

/-- The inner `for _ in range(people_per_shift)` loop: try to pick one
employee per iteration; stop early when the pool is empty; when no employee
scores above the initial best score, nothing is appended or removed. -/
def fillShift (st : States) (cfg : List (Nat × Nat)) (shift_name : String) :
    Nat → List Employee → List Employee → List Employee × List Employee
  | 0, cur, avail => (cur, avail)
  | k + 1, cur, avail =>
      if avail.isEmpty then (cur, avail)
      else
        match pickBest avail shift_name cur st cfg with
        | some e => fillShift st cfg shift_name k (cur ++ [e]) (avail.erase e)
        | none => fillShift st cfg shift_name k cur avail

/-- The per-attempt shift loop: fill each shift in order; the attempt fails
as soon as a shift does not end up with exactly `people_per_shift` people. -/
def assignShifts (ctx : GenCtx) (st : States) :
    List String → List Employee → List (String × List Employee) →
    Option (List (String × List Employee))
  | [], _, acc => some acc
  | s :: rest, avail, acc =>
      let r := fillShift st ctx.stability_config s ctx.people_per_shift [] avail
      if r.1.length = ctx.people_per_shift then
        assignShifts ctx st rest r.2 (acc ++ [(s, r.1)])
      else none

/-- The post-hoc hierarchy-diversity check: fail when some shift with more
than one member is single-level while the team has several levels. -/
def diversityOk (ctx : GenCtx) (teams : List (String × List Employee)) : Bool :=
  teams.all (fun p =>
    ¬ (1 < p.2.length ∧
       (p.2.map (fun e => e.designation.hierarchy_level)).dedup.length = 1 ∧
       1 < ctx.distinct_hierarchy_levels.length))

/-- One selection step of the shuffle: pick the element at position
`r k % length`, remove it, continue with the rest. -/
def shuffleGo (r : Nat → Nat) : Nat → Nat → List Employee → List Employee
  | _, 0, l => l
  | _, _ + 1, [] => []
  | k, fuel + 1, x :: xs =>
      let l := x :: xs
      let hd := l.getD (r k % l.length) x
      hd :: shuffleGo r (k + 1) fuel (l.erase hd)

/-- `random.shuffle(available_employees)`: an arbitrary permutation chosen by
the random stream. -/
def shuffleWith (r : Nat → Nat) (l : List Employee) : List Employee :=
  shuffleGo r 0 l.length l

/-- One iteration of the retry loop: shuffle, assign, and keep the result
only if every shift is exactly filled and the diversity check passes. -/
def attemptMonth (ctx : GenCtx) (st : States) (midx attempt : Nat)
    (pool : List Employee) : Option (List (String × List Employee)) :=
  let avail := shuffleWith (ctx.rand midx attempt) pool
  match assignShifts ctx st ctx.desirable_shifts avail [] with
  | some teams => if diversityOk ctx teams then some teams else none
  | none => none

/-- The round-robin fallback: employee `i` of the pool goes to shift
`i % num_shifts` unless that shift already holds `people_per_shift` people
(so shift `j` keeps the first `people_per_shift` pool members whose index is
congruent to `j`). -/
def fallbackTeams (ctx : GenCtx) (pool : List Employee) :
    List (String × List Employee) :=
  ctx.desirable_shifts.enum.map (fun p =>
    (p.2, ((pool.enum.filter (fun q => q.1 % ctx.num_shifts = p.1)).map (fun q => q.2)).take
      ctx.people_per_shift))

/-- The `while assignment_attempts < max_attempts` loop (`max_attempts =
100`): the first successful attempt wins; if all fail, fall back to
round-robin. -/
def monthTeams (ctx : GenCtx) (st : States) (midx : Nat) (pool : List Employee) :
    List (String × List Employee) :=
  match (List.range 100).findSome? (fun a => attemptMonth ctx st midx a pool) with
  | some teams => teams
  | none => fallbackTeams ctx pool

/-- The fixed-staff state update: same shift again increments
`months_on_current_shift`, a new shift records `last_shift` and resets the
counter to 1. -/
def updateShiftStates (teams : List (String × List Employee)) (st : States) : States :=
  teams.foldl
    (fun st p =>
      p.2.foldl
        (fun st e =>
          let s := st e.id
          if s.current_shift = some p.1 then
            setState st e.id
              { s with months_on_current_shift := s.months_on_current_shift + 1 }
          else
            setState st e.id
              { s with last_shift := s.current_shift, current_shift := some p.1,
                       months_on_current_shift := 1 })
        st)
    st

/-- `datetime(current_year, current_month, 1).strftime('%B %Y')`. -/
def monthNameStr : Nat → String
  | 1 => "January"
  | 2 => "February"
  | 3 => "March"
  | 4 => "April"
  | 5 => "May"
  | 6 => "June"
  | 7 => "July"
  | 8 => "August"
  | 9 => "September"
  | 10 => "October"
  | 11 => "November"
  | 12 => "December"
  | _ => ""

def monthLabel (startYear startMonth midx : Nat) : String :=
  let y := startYear + (startMonth + midx - 1) / 12
  let m := (startMonth + midx - 1) % 12 + 1
  monthNameStr m ++ " " ++ toString y

/-- Per-shift output of one month, before rendering to name/designation
records. -/
structure CoreShift where
  assigned_staff : List Employee
  floaters : List Employee
deriving DecidableEq

/-- One generated month: shift name → assigned staff and floaters, emitted
for every shift of `desirable_shifts` in that order. -/
abbrev CoreMonth := List (String × CoreShift)

def buildMonth (ctx : GenCtx) (teams fmap : List (String × List Employee)) : CoreMonth :=
  ctx.desirable_shifts.map (fun s =>
    (s, ⟨(teams.lookup s).getD [], (fmap.lookup s).getD []⟩))

/-- One iteration of the main monthly loop. -/
def monthStep (ctx : GenCtx) (st : States) (midx : Nat) : States × (String × CoreMonth) :=
  let active := activeFloaters ctx st
  let st1 := updateFloaterStates ctx active st
  let fmap := floaterMapOf ctx active
  let pool := ctx.all_employees.filter (fun e => ¬ e ∈ active)
  let teams := monthTeams ctx st1 midx pool
  let st2 := updateShiftStates teams st1
  (st2, (monthLabel ctx.start_year ctx.start_month midx, buildMonth ctx teams fmap))

/-- The monthly loop over the given month indices. -/
def genMonths (ctx : GenCtx) : List Nat → States → List (String × CoreMonth)
  | [], _ => []
  | i :: rest, st =>
      let r := monthStep ctx st i
      r.2 :: genMonths ctx rest r.1

/-- `generate_monthly_assignments` up to rendering: `none` models the three
`flash`-and-return-`{}` error paths (empty roster, invalid template,
insufficient employees). -/
def generateCore (team : Team) (months : Nat) (startYear startMonth : Nat)
    (rand : Nat → Nat → Nat → Nat) : Option (List (String × CoreMonth)) :=
  let ctx := mkGenCtx team startYear startMonth rand
  if ctx.all_employees.isEmpty then none
  else if ctx.num_shifts = 0 then none
  else if ctx.all_employees.length < ctx.required_for_fixed then none
  else some (genMonths ctx (List.range months) (initStates ctx.all_employees))

/-- A `{'name': ..., 'designation': ...}` record of the output document. -/
structure StaffRecord where
  name : String
  designation : String
deriving DecidableEq

/-- Rendered per-shift record of the output document. -/
structure ShiftRecord where
  assigned_staff : List StaffRecord
  floaters : List StaffRecord
deriving DecidableEq

def renderEmployee (e : Employee) : StaffRecord := ⟨e.name, e.designation.title⟩

def renderMonth (m : CoreMonth) : List (String × ShiftRecord) :=
  m.map (fun p =>
    (p.1, ⟨p.2.assigned_staff.map renderEmployee, p.2.floaters.map renderEmployee⟩))

/-- `generate_monthly_assignments(team, months)`: the persisted document,
an insertion-ordered month-label → month mapping. -/
def generate_monthly_assignments (team : Team) (months : Nat)
    (startYear startMonth : Nat) (rand : Nat → Nat → Nat → Nat) :
    Option (List (String × List (String × ShiftRecord))) :=
  (generateCore team months startYear startMonth rand).map
    (fun l => l.map (fun p => (p.1, renderMonth p.2)))

/-- All employees listed under `floaters` in a generated month. -/
def monthFloatersE (m : CoreMonth) : List Employee :=
  (m.map (fun p => p.2.floaters)).flatten

/-- All employees listed under `assigned_staff` in a generated month. -/
def monthAssignedE (m : CoreMonth) : List Employee :=
  (m.map (fun p => p.2.assigned_staff)).flatten

/-- Every slot of a generated month (each assigned-staff and floater entry). -/
def monthEmployees (m : CoreMonth) : List Employee :=
  monthAssignedE m ++ monthFloatersE m

/-- The most senior (numerically smallest) hierarchy level present in the
team: `distinct_hierarchy_levels[0]`, i.e. team rank 1. -/
def topHierarchyLevelOf (team : Team) : Nat :=
  (distinctLevelsOf (sortedEmployees team)).headD 0

/-- The employees below the top hierarchy level — the floater candidate
pool of every month. -/
def teamFloaterCandidates (team : Team) : List Employee :=
  (sortedEmployees team).filter
    (fun e => e.designation.hierarchy_level ≠ topHierarchyLevelOf team)

/-- `num_floaters = max(0, len(all_employees) - required_for_fixed)`
(constant across months). -/
def numFloatersOf (team : Team) : Nat :=
  (sortedEmployees team).length - (desirableShiftsOf team).length * team.people_per_shift

/-- Modelled from the spec: the canonical shift catalog ordering
"Early Morning, Morning, Afternoon, Evening, Night" that the specification
asserts for the emitted per-shift records. -/
def specCatalogOrder : List String :=
  ["Early Morning", "Morning", "Afternoon", "Evening", "Night"]

/-- Spec-side decomposition of a `(month, shift)` sequence into its maximal
runs of unchanged shift: adjacent entries with equal shift fall into the same
run, a shift change starts a new run.  Written independently of
`collectPeriods` for comparison with it. -/
def maximalRuns : List (String × String) → List (List (String × String))
  | [] => []
  | p :: rest =>
      match maximalRuns rest with
      | [] => [[p]]
      | r :: rs => if (r.headD ("", "")).2 = p.2 then (p :: r) :: rs else [p] :: r :: rs

/-- Claim-side reading of a stability run: maximal runs of *adjacent months*
(months in which the employee is not assigned break the run), computed from
the per-month `Option (month, shift)` view of an employee. -/
def adjacentRuns : List (Option (String × String)) → List (List (String × String))
  | [] => []
  | none :: rest => adjacentRuns rest
  | some p :: rest =>
      match rest with
      | some q :: _ =>
          if q.2 = p.2 then
            match adjacentRuns rest with
            | r :: rs => (p :: r) :: rs
            | [] => [[p]]
          else [p] :: adjacentRuns rest
      | _ => [p] :: adjacentRuns rest

/-- The per-month assigned view of one employee used by `adjacentRuns`:
`some (month, shift)` when the month tracks the employee as assigned staff. -/
def assignedByMonth (monthNames : List String) (mm : MonthMap) :
    List (Option (String × String)) :=
  monthNames.map (fun m =>
    match mm.lookup m with
    | some rs => if rs.role = .assigned then some (m, rs.shift) else none
    | none => none)

/-- Rule-1 constructor test (for isolating the stability violations of a
report). -/
def Violation.isRule1 : Violation → Bool
  | .rule1 .. => true
  | _ => false

/-- The core-rule violations of a report. -/
def coreViolations (r : Report) : List Violation :=
  r.violations.filter (fun v => v.isCore)

/-! ### Concrete fixtures used by counterexamples and witnesses -/

def exStaff (nm : String) : Json := .obj [("name", .str nm), ("designation", .str "X")]

def exShift (assigned fl : List String) : Json :=
  .obj [("assigned_staff", .arr (assigned.map exStaff)),
        ("floaters", .arr (fl.map exStaff))]

/-- Two-person hierarchy: A at level 1 (team rank 1), B at level 2. -/
def exInfoAB : List EmpInfo := [⟨"A", 1, "Boss", 1⟩, ⟨"B", 2, "Mid", 2⟩]

/-- A one-month schedule in which rank-1 employee A floats: one Rule 2 core
violation under validation. -/
def exSchedBad : Json := .obj [("M1", .obj [("Morning", exShift ["B"] ["A"])])]

/-- A two-month schedule in which rank-1 employee A floats twice: two Rule 2
violations plus one Rule 3 violation under validation. -/
def exSchedWorse : Json :=
  .obj [("M1", .obj [("Morning", exShift ["B"] ["A"])]),
        ("M2", .obj [("Morning", exShift ["B"] ["A"])])]

/-- An AI answer proposing `exSchedWorse`. -/
def exAiResp : AiResponse := ⟨true, some exSchedWorse, [], none⟩

/-- Three-person hierarchy with three levels: C has team rank 3
(stability limit 1). -/
def exInfoABC : List EmpInfo :=
  [⟨"A", 1, "Boss", 1⟩, ⟨"B", 2, "Mid", 2⟩, ⟨"C", 3, "Jr", 3⟩]

/-- Three months in which C is assigned to Morning in M1 and M3 but floats in
M2: C has no two *adjacent* months assigned with unchanged shift, yet the
validator merges M1 and M3 into one period. -/
def exSchedGap : Json := .obj
  [("M1", .obj [("Morning", exShift ["C"] []), ("Afternoon", exShift ["A"] []),
                ("Night", exShift ["B"] [])]),
   ("M2", .obj [("Morning", exShift ["A"] ["C"]), ("Afternoon", exShift ["B"] []),
                ("Night", exShift ["D"] [])]),
   ("M3", .obj [("Morning", exShift ["C"] []), ("Afternoon", exShift ["B"] []),
                ("Night", exShift ["A"] [])])]

def exEmp (i : Nat) (nm : String) (lvl : Nat) : Employee := ⟨i, nm, ⟨"T", lvl⟩⟩

/-- Five employees at five levels on the 5-shift template (no floaters). -/
def exTeam5 : Team :=
  ⟨"A", "5-shift", 1,
    [exEmp 1 "a" 1, exEmp 2 "b" 2, exEmp 3 "c" 3, exEmp 4 "d" 4, exEmp 5 "e" 5]⟩

/-- Four employees, all at one level, 3-shift template: one employee more
than the fixed requirement but no floater candidate below the top level. -/
def exTeam4same : Team :=
  ⟨"B", "3-shift", 1, [exEmp 1 "a" 1, exEmp 2 "b" 1, exEmp 3 "c" 1, exEmp 4 "d" 1]⟩

/-- Three employees at level 1 and one at level 2 on the 3-shift template:
the single floater slot must go to d every month (backfill shortage). -/
def exTeamFloat : Team :=
  ⟨"C", "3-shift", 1, [exEmp 1 "a" 1, exEmp 2 "b" 1, exEmp 3 "c" 1, exEmp 4 "d" 2]⟩

/-- A degenerate random stream (the shuffle picks the head each time). -/
def exRand : Nat → Nat → Nat → Nat := fun _ _ _ => 0

/-- The employees whose selection index is congruent to `j` (one round-robin
bucket of the floater distribution and of the fallback assignment). -/
def bucketOf (src : List Employee) (n j : Nat) : List Employee :=
  (src.enum.filter (fun q => q.1 % n = j)).map (fun q => q.2)

/-- The floater-fairness property chained along the month sequence, phrased
on the generated output: relative to the previous month's floater set
`prev`, an employee floating again in the head month implies the candidates
not in `prev` were fewer than the required floater count; the head month's
floaters then become `prev` for the tail. -/
def floaterChainOk (ctx : GenCtx) : List Employee → List (String × CoreMonth) → Prop
  | _, [] => True
  | prev, m :: ms =>
      ((∃ x, x ∈ monthFloatersE m.2 ∧ x ∈ prev) →
        ((floaterCandidates ctx).filter (fun e => ¬ e ∈ prev)).length <
          ctx.num_floaters) ∧
      floaterChainOk ctx (monthFloatersE m.2) ms

/-- Helper relating `collectPeriods` to `maximalRuns`: prepend a pending run
to a run decomposition, merging it into the first run when the shifts
match. -/
def attachRun (cur : List (String × String)) :
    List (List (String × String)) → List (List (String × String))
  | [] => [cur]
  | r :: rs =>
      if (r.headD ("", "")).2 = (cur.getLastD ("", "")).2 then (cur ++ r) :: rs
      else cur :: r :: rs

/-- `exSchedGap` decoded to its typed form. -/
def exSchedGapTyped : VSchedule :=
  [("M1", [("Morning", ⟨["C"], []⟩), ("Afternoon", ⟨["A"], []⟩),
           ("Night", ⟨["B"], []⟩)]),
   ("M2", [("Morning", ⟨["A"], ["C"]⟩), ("Afternoon", ⟨["B"], []⟩),
           ("Night", ⟨["D"], []⟩)]),
   ("M3", [("Morning", ⟨["C"], []⟩), ("Afternoon", ⟨["B"], []⟩),
           ("Night", ⟨["A"], []⟩)])]

/-! ## Theorems -/

/-- C8: if the violations list passed to `fix_schedule_with_ai` contains no
core-rule (Rule 1/2/3) violations — in particular when it is empty — and
hierarchy info and an API key are provided, the call returns the input
schedule unchanged with success and empty `changes_made`,
`violations_fixed`, and `violations_remaining`; the result is the same for
every AI outcome, i.e. the external AI is not consulted. -/
theorem fix_noop_when_no_core_violations (broken : Json)
    (violations_list : List Violation) (info : List EmpInfo) (ai : AiOutcome)
    (hinfo : info ≠ [])
    (hcore : violations_list.filter (fun v => v.isCore) = []) :
    fix_schedule_with_ai broken violations_list info true ai =
      .success broken [] [] [] "No valid violations found to fix" := by
  have h1 : info.isEmpty = false := by simp [List.isEmpty_iff, hinfo]
  unfold fix_schedule_with_ai
  simp [h1, hcore]

theorem fix_noop_when_no_core_violations_witness :
    fix_schedule_with_ai exSchedBad [.rule4 "Morning" "M1" 2 1] exInfoAB true
        (.failure "oracle down") =
      .success exSchedBad [] [] [] "No valid violations found to fix" :=
  fix_noop_when_no_core_violations exSchedBad [.rule4 "Morning" "M1" 2 1]
    exInfoAB (.failure "oracle down") (by decide) (by decide)

/-- C7: whenever `fix_schedule_with_ai` re-validates an AI-proposed candidate
and the new core-rule violation count strictly exceeds the number of core
violations passed in, the proposal is rejected: the original schedule is
returned with success, empty `changes_made` and `violations_fixed`, and the
original core violations as `violations_remaining`. -/
theorem fix_rejects_worse_proposal (broken : Json)
    (violations_list : List Violation) (info : List EmpInfo) (r : AiResponse)
    (s : Json) (hinfo : info ≠ [])
    (hcore : violations_list.filter (fun v => v.isCore) ≠ [])
    (hfp : r.fixes_possible = true) (hs : r.schedule = some s)
    (hfalsy : isFalsyJson s = false)
    (hworse : (violations_list.filter (fun v => v.isCore)).length <
      (coreViolations (validate_schedule_programmatically s info)).length) :
    fix_schedule_with_ai broken violations_list info true (.response r) =
      .success broken [] [] (violations_list.filter (fun v => v.isCore))
        "AI attempted fixes but they would create new violations. Manual intervention required." := by
  have h1 : info.isEmpty = false := by simp [List.isEmpty_iff, hinfo]
  have h2 : (violations_list.filter (fun v => v.isCore)).isEmpty = false := by
    simp [List.isEmpty_iff, hcore]
  have h3 := hworse
  unfold coreViolations at h3
  unfold fix_schedule_with_ai
  simp [h1, h2, hfp, hs, hfalsy, h3]

theorem fix_rejects_worse_proposal_witness :
    fix_schedule_with_ai exSchedBad [.rule3 "B" "M1" "M2"] exInfoAB true
        (.response exAiResp) =
      .success exSchedBad [] [] [.rule3 "B" "M1" "M2"]
        "AI attempted fixes but they would create new violations. Manual intervention required." :=
  fix_rejects_worse_proposal exSchedBad [.rule3 "B" "M1" "M2"] exInfoAB
    exAiResp exSchedWorse (by decide) (by decide) rfl rfl rfl (by decide)

/-- C6 counterexample: `fix_schedule_with_ai` with `V = []` on a schedule
that already carries one core violation takes the no-op path and returns
that schedule, whose re-validated core-violation count (1) exceeds
`len(V) = 0` — the claim's bound fails on the early no-op return. -/
theorem fix_core_monotonicity_counterexample :
    fix_schedule_with_ai exSchedBad [] exInfoAB true (.failure "oracle down") =
      .success exSchedBad [] [] [] "No valid violations found to fix" ∧
    (coreViolations (validate_schedule_programmatically exSchedBad exInfoAB)).length = 1 ∧
    ¬ (coreViolations (validate_schedule_programmatically exSchedBad exInfoAB)).length ≤
        ([] : List Violation).length :=
  ⟨rfl, by decide, by decide⟩

/-- C6 (amended): whatever `fix_schedule_with_ai` returns as a schedule, its
re-validated core-violation count never exceeds
`max len(V) (core count of re-validating the *input* schedule)`: the
accepted-proposal path is bounded by the core violations in `V` (hence by
`len(V)`), while the no-op and rejection paths return the input schedule
itself.  The claim's bound `len(V)` alone holds only on the acceptance
path. -/
theorem fix_core_violation_bound (broken : Json) (violations_list : List Violation)
    (info : List EmpInfo) (key : Bool) (ai : AiOutcome) (s : Json)
    (ch : List FrontendChange) (fx rem : List Violation) (msg : String)
    (h : fix_schedule_with_ai broken violations_list info key ai =
      .success s ch fx rem msg) :
    (coreViolations (validate_schedule_programmatically s info)).length ≤
      max violations_list.length
        (coreViolations (validate_schedule_programmatically broken info)).length := by
  unfold fix_schedule_with_ai at h
  by_cases h0 : info.isEmpty = true ∨ key = false
  · rw [if_pos h0] at h
    exact absurd h (by simp)
  · rw [if_neg h0] at h
    simp only [] at h
    by_cases h1 : (List.filter (fun v => v.isCore) violations_list).isEmpty = true
    · rw [if_pos h1] at h
      injection h with hs hch hfx hrem hmsg
      subst hs
      exact le_max_right _ _
    · rw [if_neg h1] at h
      cases ai with
      | failure m => exact absurd h (by simp)
      | response r =>
        simp only [] at h
        by_cases h2 : r.fixes_possible = false
        · rw [if_pos h2] at h
          injection h with hs hch hfx hrem hmsg
          subst hs
          exact le_max_right _ _
        · rw [if_neg h2] at h
          cases hsch : r.schedule with
          | none =>
              rw [hsch] at h
              exact absurd h (by simp)
          | some fs =>
              rw [hsch] at h
              simp only [] at h
              by_cases h3 : isFalsyJson fs = true
              · rw [if_pos h3] at h
                exact absurd h (by simp)
              · rw [if_neg h3] at h
                by_cases h4 : (List.filter (fun v => v.isCore) violations_list).length <
                    (List.filter (fun v => v.isCore)
                      (validate_schedule_programmatically fs info).violations).length
                · rw [if_pos h4] at h
                  injection h with hs hch hfx hrem hmsg
                  subst hs
                  exact le_max_right _ _
                · rw [if_neg h4] at h
                  injection h with hs hch hfx hrem hmsg
                  subst hs
                  unfold coreViolations
                  have hb := List.length_filter_le (fun v => v.isCore) violations_list
                  omega

theorem fix_core_violation_bound_witness :
    (coreViolations (validate_schedule_programmatically exSchedBad exInfoAB)).length ≤
      max ([] : List Violation).length
        (coreViolations (validate_schedule_programmatically exSchedBad exInfoAB)).length :=
  fix_core_violation_bound exSchedBad [] exInfoAB true (.failure "oracle down")
    exSchedBad [] [] [] "No valid violations found to fix" rfl

/-- C9: `validate_schedule_programmatically` is a total function (it never
raises); on every return path `is_valid` holds iff the violations list is
empty; and on the two input-error paths — missing hierarchy info, malformed
schedule document — the report has `is_valid = false` and exactly one
diagnostic violation. -/
theorem validator_never_raises (j : Json) (info : List EmpInfo) :
    ((validate_schedule_programmatically j info).is_valid = true ↔
      (validate_schedule_programmatically j info).violations = []) ∧
    (info = [] →
      (validate_schedule_programmatically j info).is_valid = false ∧
      (validate_schedule_programmatically j info).violations.length = 1) ∧
    (info ≠ [] → ∀ e, decodeSchedule j = .error e →
      (validate_schedule_programmatically j info).is_valid = false ∧
      (validate_schedule_programmatically j info).violations.length = 1) := by
  unfold validate_schedule_programmatically
  by_cases hi : info.isEmpty
  · have : info = [] := List.isEmpty_iff.mp hi
    simp [hi, this]
  · have hne : ¬ info = [] := by simpa [List.isEmpty_iff] using hi
    cases hd : decodeSchedule j with
    | error e => simp [hi, hne]
    | ok sched => simp [hi, hne, validateTyped, List.isEmpty_iff]

theorem validator_never_raises_witness :
    (validate_schedule_programmatically (Json.num 3) []).is_valid = false ∧
    (validate_schedule_programmatically (Json.num 3) []).violations.length = 1 ∧
    (validate_schedule_programmatically (Json.num 3) exInfoAB).is_valid = false ∧
    (validate_schedule_programmatically (Json.num 3) exInfoAB).violations.length = 1 := by
  have h1 := (validator_never_raises (Json.num 3) []).2.1 rfl
  have h2 := (validator_never_raises (Json.num 3) exInfoAB).2.2 (by decide)
    "schedule is not a dict" rfl
  exact ⟨h1.1, h1.2, h2.1, h2.2⟩

theorem buildMonth_keys (ctx : GenCtx) (teams fmap : List (String × List Employee)) :
    (buildMonth ctx teams fmap).map Prod.fst = ctx.desirable_shifts := by
  unfold buildMonth
  rw [List.map_map]
  have h : ∀ s ∈ ctx.desirable_shifts,
      (Prod.fst ∘ fun s => (s,
        (⟨(teams.lookup s).getD [], (fmap.lookup s).getD []⟩ : CoreShift))) s = id s :=
    fun s _ => rfl
  rw [List.map_congr_left h, List.map_id]

theorem genMonths_keys (ctx : GenCtx) :
    ∀ (l : List Nat) (st : States), ∀ m ∈ genMonths ctx l st,
      m.2.map Prod.fst = ctx.desirable_shifts := by
  intro l
  induction l with
  | nil => intro st m hm; simp [genMonths] at hm
  | cons i rest ih =>
      intro st m hm
      rw [genMonths] at hm
      rcases List.mem_cons.mp hm with h | h
      · subst h
        exact buildMonth_keys ctx _ _
      · exact ih _ m h

theorem generateCore_eq_some {team : Team} {months sy sm : Nat}
    {rand : Nat → Nat → Nat → Nat} {l : List (String × CoreMonth)}
    (h : generateCore team months sy sm rand = some l) :
    l = genMonths (mkGenCtx team sy sm rand) (List.range months)
        (initStates (mkGenCtx team sy sm rand).all_employees) ∧
    (mkGenCtx team sy sm rand).all_employees.isEmpty = false ∧
    (mkGenCtx team sy sm rand).num_shifts ≠ 0 ∧
    (mkGenCtx team sy sm rand).required_for_fixed ≤
      (mkGenCtx team sy sm rand).all_employees.length := by
  unfold generateCore at h
  simp only [] at h
  split at h
  · exact absurd h (by simp)
  · split at h
    · exact absurd h (by simp)
    · split at h
      · exact absurd h (by simp)
      · rename_i h1 h2 h3
        injection h with h4
        refine ⟨h4.symm, ?_, h2, ?_⟩
        · simpa using h1
        · omega

theorem desirableShiftsOf_five {team : Team} (h : team.shift_template = "5-shift") :
    desirableShiftsOf team = ["Morning", "Afternoon", "Evening", "Night", "Early Morning"] := by
  unfold desirableShiftsOf shiftsInTemplate
  rw [h]
  rfl

/-- C1 (amended): every month of every schedule returned by
`generate_monthly_assignments` emits its per-shift records for exactly the
shifts of the active template, in `SHIFT_DESIRABILITY_ORDER` — Morning,
Afternoon, Evening, Night, Early Morning — filtered to the template (for the
3- and 4-shift templates this coincides with the spec's catalog order, for
the 5-shift template it does not); in particular, for the 5-shift template
the month's shift keys appear in the order Morning, Afternoon, Evening,
Night, Early Morning. -/
theorem month_shift_keys_in_desirability_order (team : Team) (months sy sm : Nat)
    (rand : Nat → Nat → Nat → Nat) :
    ∀ m ∈ (generate_monthly_assignments team months sy sm rand).getD [],
      m.2.map Prod.fst = desirableShiftsOf team ∧
      (team.shift_template = "5-shift" →
        m.2.map Prod.fst =
          ["Morning", "Afternoon", "Evening", "Night", "Early Morning"]) := by
  intro m hm
  unfold generate_monthly_assignments at hm
  cases hg : generateCore team months sy sm rand with
  | none => rw [hg] at hm; simp at hm
  | some core =>
      rw [hg] at hm
      have hm2 : m ∈ core.map (fun p => (p.1, renderMonth p.2)) := by simpa using hm
      obtain ⟨cm, hcm, hmeq⟩ := List.mem_map.mp hm2
      obtain ⟨hcore, -, -, -⟩ := generateCore_eq_some hg
      have hkeys : cm.2.map Prod.fst = (mkGenCtx team sy sm rand).desirable_shifts := by
        exact genMonths_keys _ _ _ cm (hcore ▸ hcm)
      have hmk : m.2.map Prod.fst = cm.2.map Prod.fst := by
        rw [← hmeq]
        simp [renderMonth]
      have hds : (mkGenCtx team sy sm rand).desirable_shifts = desirableShiftsOf team := rfl
      refine ⟨by rw [hmk, hkeys, hds], fun h5 => ?_⟩
      rw [hmk, hkeys, hds, desirableShiftsOf_five h5]

theorem month_shift_keys_in_desirability_order_witness :
    (((generate_monthly_assignments exTeam5 1 2025 1 exRand).getD []).headD ("", [])).2.map
        Prod.fst = desirableShiftsOf exTeam5 ∧
    (exTeam5.shift_template = "5-shift" →
      (((generate_monthly_assignments exTeam5 1 2025 1 exRand).getD []).headD ("", [])).2.map
          Prod.fst = ["Morning", "Afternoon", "Evening", "Night", "Early Morning"]) :=
  month_shift_keys_in_desirability_order exTeam5 1 2025 1 exRand
    (((generate_monthly_assignments exTeam5 1 2025 1 exRand).getD []).headD ("", []))
    (by decide)

/-! Helper lemmas about association-list lookups (Python dict reads). -/

theorem mem_of_lookup_eq_some {α β : Type} [BEq α] [LawfulBEq α]
    {kv : List (α × β)} {a : α} {b : β} (h : kv.lookup a = some b) :
    (a, b) ∈ kv := by
  induction kv with
  | nil => simp [List.lookup] at h
  | cons p rest ih =>
      rw [List.lookup] at h
      cases hk : a == p.1 with
      | true =>
          rw [hk] at h
          simp only [] at h
          injection h with hb
          have ha : a = p.1 := eq_of_beq hk
          have : (a, b) = p := by rw [ha, ← hb]
          rw [this]
          exact List.mem_cons_self _ _
      | false =>
          rw [hk] at h
          simp only [] at h
          exact List.mem_cons_of_mem _ (ih h)

theorem lookup_isSome_of_mem_keys {α β : Type} [BEq α] [LawfulBEq α]
    {kv : List (α × β)} {a : α} (h : a ∈ kv.map Prod.fst) :
    (kv.lookup a).isSome := by
  induction kv with
  | nil => simp at h
  | cons p rest ih =>
      rw [List.lookup]
      cases hk : a == p.1 with
      | true => rfl
      | false =>
          show (List.lookup a rest).isSome = true
          apply ih
          rw [List.map_cons] at h
          rcases List.mem_cons.mp h with h1 | h1
          · exact absurd (beq_iff_eq.mpr h1) (by simp [hk])
          · exact h1

/-! Helper lemmas for the greedy fixed-staff assignment. -/

theorem pickBest_mem {avail : List Employee} {shift_name : String}
    {cur : List Employee} {st : States} {cfg : List (Nat × Nat)} {e : Employee}
    (h : pickBest avail shift_name cur st cfg = some e) : e ∈ avail := by
  unfold pickBest at h
  suffices hgen : ∀ (l : List Employee) (acc : Option Employee × Int),
      (l.foldl (fun acc e =>
        let s := calculateAssignmentScore e shift_name cur st cfg
        if acc.2 < s then (some e, s) else acc) acc).1 = acc.1 ∨
      ∃ x ∈ l, (l.foldl (fun acc e =>
        let s := calculateAssignmentScore e shift_name cur st cfg
        if acc.2 < s then (some e, s) else acc) acc).1 = some x by
    rcases hgen avail (none, -1) with h1 | ⟨x, hx, h1⟩
    · rw [h] at h1; exact absurd h1.symm (by simp)
    · rw [h] at h1; injection h1 with h2; rw [h2]; exact hx
  intro l
  induction l with
  | nil => intro acc; left; rfl
  | cons y ys ih =>
      intro acc
      rw [List.foldl_cons]
      rcases ih (if acc.2 < calculateAssignmentScore y shift_name cur st cfg
          then (some y, calculateAssignmentScore y shift_name cur st cfg) else acc) with h1 | ⟨x, hx, h1⟩
      · by_cases hc : acc.2 < calculateAssignmentScore y shift_name cur st cfg
        · right
          refine ⟨y, List.mem_cons_self _ _, ?_⟩
          rw [h1, if_pos hc]
        · left
          rw [h1, if_neg hc]
      · right
        exact ⟨x, List.mem_cons_of_mem _ hx, h1⟩

theorem fillShift_perm (st : States) (cfg : List (Nat × Nat)) (shift_name : String) :
    ∀ (fuel : Nat) (cur avail : List Employee),
      ((fillShift st cfg shift_name fuel cur avail).1 ++
        (fillShift st cfg shift_name fuel cur avail).2).Perm (cur ++ avail) := by
  intro fuel
  induction fuel with
  | zero => intro cur avail; rw [fillShift]
  | succ k ih =>
      intro cur avail
      rw [fillShift]
      by_cases he : avail.isEmpty
      · rw [if_pos he]
      · rw [if_neg he]
        cases hp : pickBest avail shift_name cur st cfg with
        | none => exact ih cur avail
        | some e =>
            have h1 := ih (cur ++ [e]) (avail.erase e)
            have h2 : (cur ++ [e]) ++ avail.erase e = cur ++ (e :: avail.erase e) := by
              rw [List.append_assoc]; rfl
            rw [h2] at h1
            exact h1.trans (List.Perm.append_left cur
              (List.perm_cons_erase (pickBest_mem hp)).symm)

theorem assignShifts_lengths (ctx : GenCtx) (st : States) :
    ∀ (shifts : List String) (avail : List Employee)
      (acc teams : List (String × List Employee)),
      assignShifts ctx st shifts avail acc = some teams →
      (∀ p ∈ acc, p.2.length = ctx.people_per_shift) →
      ∀ p ∈ teams, p.2.length = ctx.people_per_shift := by
  intro shifts
  induction shifts with
  | nil =>
      intro avail acc teams h hacc
      rw [assignShifts] at h
      injection h with h1
      rw [← h1]
      exact hacc
  | cons s rest ih =>
      intro avail acc teams h hacc
      rw [assignShifts] at h
      by_cases hl : (fillShift st ctx.stability_config s ctx.people_per_shift [] avail).1.length
          = ctx.people_per_shift
      · rw [if_pos hl] at h
        refine ih _ _ _ h ?_
        intro p hp
        rcases List.mem_append.mp hp with h1 | h1
        · exact hacc p h1
        · rw [List.mem_singleton.mp h1]
          exact hl
      · rw [if_neg hl] at h
        exact absurd h (by simp)

theorem assignShifts_keys (ctx : GenCtx) (st : States) :
    ∀ (shifts : List String) (avail : List Employee)
      (acc teams : List (String × List Employee)),
      assignShifts ctx st shifts avail acc = some teams →
      teams.map Prod.fst = acc.map Prod.fst ++ shifts := by
  intro shifts
  induction shifts with
  | nil =>
      intro avail acc teams h
      rw [assignShifts] at h
      injection h with h1
      rw [← h1, List.append_nil]
  | cons s rest ih =>
      intro avail acc teams h
      rw [assignShifts] at h
      by_cases hl : (fillShift st ctx.stability_config s ctx.people_per_shift [] avail).1.length
          = ctx.people_per_shift
      · rw [if_pos hl] at h
        rw [ih _ _ _ h]
        simp
      · rw [if_neg hl] at h
        exact absurd h (by simp)

theorem assignShifts_flatten (ctx : GenCtx) (st : States) :
    ∀ (shifts : List String) (avail : List Employee)
      (acc teams : List (String × List Employee)),
      assignShifts ctx st shifts avail acc = some teams →
      ∃ rem, ((teams.map (fun p => p.2)).flatten ++ rem).Perm
        ((acc.map (fun p => p.2)).flatten ++ avail) := by
  intro shifts
  induction shifts with
  | nil =>
      intro avail acc teams h
      rw [assignShifts] at h
      injection h with h1
      exact ⟨avail, by rw [← h1]⟩
  | cons s rest ih =>
      intro avail acc teams h
      rw [assignShifts] at h
      rcases hfe : fillShift st ctx.stability_config s ctx.people_per_shift [] avail with ⟨c2, a2⟩
      rw [hfe] at h
      simp only [] at h
      by_cases hl : c2.length = ctx.people_per_shift
      · rw [if_pos hl] at h
        obtain ⟨rem, hrem⟩ := ih _ _ _ h
        refine ⟨rem, hrem.trans ?_⟩
        have hfp := fillShift_perm st ctx.stability_config s ctx.people_per_shift [] avail
        rw [hfe] at hfp
        simp only [List.nil_append] at hfp
        have heq : ((acc ++ [(s, c2)]).map (fun p => p.2)).flatten ++ a2
            = (acc.map (fun p => p.2)).flatten ++ (c2 ++ a2) := by
          simp [List.append_assoc]
        rw [heq]
        exact List.Perm.append_left _ hfp
      · rw [if_neg hl] at h
        exact absurd h (by simp)

theorem shuffleGo_perm (r : Nat → Nat) :
    ∀ (fuel k : Nat) (l : List Employee), (shuffleGo r k fuel l).Perm l := by
  intro fuel
  induction fuel with
  | zero => intro k l; rw [shuffleGo]
  | succ f ih =>
      intro k l
      cases l with
      | nil => rw [shuffleGo]
      | cons x xs =>
          rw [shuffleGo]
          have hlt : r k % (x :: xs).length < (x :: xs).length :=
            Nat.mod_lt _ (by simp)
          have hmem : (x :: xs).getD (r k % (x :: xs).length) x ∈ (x :: xs) := by
            rw [List.getD_eq_getElem?_getD, List.getElem?_eq_getElem hlt]
            exact List.getElem_mem hlt
          exact (List.Perm.cons _ (ih (k + 1) _)).trans
            (List.perm_cons_erase hmem).symm

theorem shuffleWith_perm (r : Nat → Nat) (l : List Employee) :
    (shuffleWith r l).Perm l :=
  shuffleGo_perm r l.length 0 l

/-! Helper lemmas about the round-robin residue buckets. -/

theorem filter_eq_range_length : ∀ (n j : Nat),
    ((List.range n).filter (fun i => i = j)).length = if j < n then 1 else 0 := by
  intro n j
  induction n with
  | zero => simp
  | succ m ih =>
      rw [List.range_succ, List.filter_append, List.length_append, ih]
      have hsing : ([m].filter (fun i => i = j)).length = if m = j then 1 else 0 := by
        by_cases hj : m = j <;> simp [hj]
      rw [hsing]
      split_ifs <;> omega

theorem range_mod_count_exact : ∀ (p n j : Nat), j < n →
    ((List.range (n * p)).filter (fun i => i % n = j)).length = p := by
  intro p
  induction p with
  | zero => intro n j hj; simp
  | succ q ih =>
      intro n j hj
      have hsplit : n * (q + 1) = n * q + n := by ring
      rw [hsplit, List.range_add, List.filter_append, List.length_append, ih n j hj]
      have hmap : ((List.range n).map (fun x => n * q + x)).filter (fun i => i % n = j)
          = ((List.range n).filter (fun x => (n * q + x) % n = j)).map (fun x => n * q + x) := by
        rw [List.map_filter]
        rfl
      have hcong : (List.range n).filter (fun x => (n * q + x) % n = j)
          = (List.range n).filter (fun x => x = j) := by
        refine List.filter_congr ?_
        intro x hx
        have hxn : x < n := List.mem_range.mp hx
        have : (n * q + x) % n = x % n := by
          rw [Nat.add_comm]
          exact Nat.add_mul_mod_self_left x n q
        simp [this, Nat.mod_eq_of_lt hxn]
      rw [hmap, hcong, List.length_map, filter_eq_range_length, if_pos hj]

theorem range_mod_count_ge {L p n j : Nat} (hL : n * p ≤ L) (hj : j < n) :
    p ≤ ((List.range L).filter (fun i => i % n = j)).length := by
  have hsub : ((List.range (n * p)).filter (fun i => i % n = j)).Sublist
      ((List.range L).filter (fun i => i % n = j)) :=
    List.Sublist.filter _ (List.range_sublist.mpr hL)
  have := hsub.length_le
  rw [range_mod_count_exact p n j hj] at this
  exact this

theorem bucketOf_length (src : List Employee) (n j : Nat) :
    (bucketOf src n j).length =
      ((List.range src.length).filter (fun i => i % n = j)).length := by
  unfold bucketOf
  rw [List.length_map]
  have h1 : (src.enum.filter (fun q => q.1 % n = j)).length =
      ((src.enum.filter (fun q => q.1 % n = j)).map Prod.fst).length := by
    rw [List.length_map]
  rw [h1]
  have h2 : (src.enum.filter (fun q => q.1 % n = j)).map Prod.fst
      = (src.enum.map Prod.fst).filter (fun i => i % n = j) := by
    rw [List.map_filter]
    rfl
  rw [h2, List.enum_map_fst]

theorem bucketOf_sublist (src : List Employee) (n j : Nat) :
    (bucketOf src n j).Sublist src := by
  unfold bucketOf
  have h := List.Sublist.map (fun q : Nat × Employee => q.2)
    (@List.filter_sublist (Nat × Employee) (fun q => decide (q.1 % n = j)) src.enum)
  rwa [List.enum_map_snd] at h

theorem mem_bucketOf {src : List Employee} {n j : Nat} {e : Employee} :
    e ∈ bucketOf src n j ↔ ∃ i, src[i]? = some e ∧ i % n = j := by
  unfold bucketOf
  constructor
  · intro h
    obtain ⟨q, hq, hqe⟩ := List.mem_map.mp h
    have hq2 := List.mem_filter.mp hq
    subst hqe
    exact ⟨q.1, List.mem_enum_iff_getElem?.mp hq2.1, by simpa using hq2.2⟩
  · rintro ⟨i, hi, hij⟩
    refine List.mem_map.mpr ⟨(i, e), List.mem_filter.mpr ⟨?_, by simpa using hij⟩, rfl⟩
    exact List.mem_enum_iff_getElem?.mpr hi

theorem bucketOf_nodup {src : List Employee} (hs : src.Nodup) (n j : Nat) :
    (bucketOf src n j).Nodup :=
  (bucketOf_sublist src n j).nodup hs

theorem bucketOf_disjoint {src : List Employee} (hs : src.Nodup) {n j1 j2 : Nat}
    (hj : j1 ≠ j2) : List.Disjoint (bucketOf src n j1) (bucketOf src n j2) := by
  intro e h1 h2
  obtain ⟨i1, hi1, hm1⟩ := mem_bucketOf.mp h1
  obtain ⟨i2, hi2, hm2⟩ := mem_bucketOf.mp h2
  have hlt1 : i1 < src.length := by
    rcases List.getElem?_eq_some_iff.mp hi1 with ⟨h, _⟩
    exact h
  have : i1 = i2 := List.getElem?_inj hlt1 hs (hi1.trans hi2.symm)
  exact hj (by rw [← hm1, ← hm2, this])

theorem buckets_flatten_nodup {src : List Employee} (hs : src.Nodup) (n : Nat)
    (f : Nat → List Employee) (hf : ∀ j, (f j).Sublist (bucketOf src n j)) :
    (((List.range n).map f).flatten).Nodup := by
  rw [List.nodup_flatten]
  constructor
  · intro l hl
    obtain ⟨j, hj, hje⟩ := List.mem_map.mp hl
    rw [← hje]
    exact ((hf j).trans (bucketOf_sublist src n j)).nodup hs
  · rw [List.pairwise_map]
    refine (List.pairwise_lt_range n).imp ?_
    intro a b hab e hea heb
    exact bucketOf_disjoint hs (Nat.ne_of_lt hab) ((hf a).mem hea) ((hf b).mem heb)

theorem buckets_flatten_perm {src : List Employee} (hs : src.Nodup) {n : Nat}
    (hn : 0 < n) :
    (((List.range n).map (fun j => bucketOf src n j)).flatten).Perm src := by
  rw [List.perm_ext_iff_of_nodup
    (buckets_flatten_nodup hs n _ (fun j => List.Sublist.refl _)) hs]
  intro e
  constructor
  · intro h
    obtain ⟨l, hl, hel⟩ := List.mem_flatten.mp h
    obtain ⟨j, hj, hje⟩ := List.mem_map.mp hl
    rw [← hje] at hel
    exact (bucketOf_sublist src n j).mem hel
  · intro h
    obtain ⟨i, hi⟩ := List.mem_iff_getElem?.mp h
    refine List.mem_flatten.mpr ⟨bucketOf src n (i % n), ?_, ?_⟩
    · exact List.mem_map.mpr ⟨i % n, List.mem_range.mpr (Nat.mod_lt _ hn), rfl⟩
    · exact mem_bucketOf.mpr ⟨i, hi, rfl⟩

theorem fallbackTeams_keys (ctx : GenCtx) (pool : List Employee) :
    (fallbackTeams ctx pool).map Prod.fst = ctx.desirable_shifts := by
  unfold fallbackTeams
  rw [List.map_map]
  have h : ∀ p ∈ ctx.desirable_shifts.enum,
      (Prod.fst ∘ fun p : Nat × String => (p.2,
        ((pool.enum.filter (fun q => q.1 % ctx.num_shifts = p.1)).map (fun q => q.2)).take
          ctx.people_per_shift)) p = Prod.snd p :=
    fun p _ => rfl
  rw [List.map_congr_left h, List.enum_map_snd]

theorem fallbackTeams_lengths (ctx : GenCtx) (pool : List Employee)
    (hds : ctx.num_shifts = ctx.desirable_shifts.length)
    (hlen : ctx.num_shifts * ctx.people_per_shift ≤ pool.length) :
    ∀ p ∈ fallbackTeams ctx pool, p.2.length = ctx.people_per_shift := by
  intro p hp
  unfold fallbackTeams at hp
  obtain ⟨q, hq, hqe⟩ := List.mem_map.mp hp
  subst hqe
  have hj : q.1 < ctx.num_shifts := by
    rw [hds]
    rcases List.getElem?_eq_some_iff.mp (List.mem_enum_iff_getElem?.mp hq) with ⟨hlt, -⟩
    exact hlt
  have hb : ctx.people_per_shift ≤ (bucketOf pool ctx.num_shifts q.1).length := by
    rw [bucketOf_length]
    exact range_mod_count_ge hlen hj
  show ((bucketOf pool ctx.num_shifts q.1).take ctx.people_per_shift).length =
    ctx.people_per_shift
  rw [List.length_take]
  omega

theorem activeFloaters_subset (ctx : GenCtx) (st : States) :
    ∀ e ∈ activeFloaters ctx st, e ∈ floaterCandidates ctx := by
  intro e he
  unfold activeFloaters at he
  by_cases h0 : 0 < ctx.num_floaters
  · rw [if_pos h0] at he
    have h1 : e ∈ (extendedEligible ctx st).insertionSort (floaterKeyLe st) :=
      List.mem_of_mem_take he
    have h2 : e ∈ extendedEligible ctx st :=
      (List.perm_insertionSort _ _).mem_iff.mp h1
    unfold extendedEligible at h2
    by_cases h3 : (eligibleFloaters ctx st).length < ctx.num_floaters
    · rw [if_pos h3] at h2
      rcases List.mem_append.mp h2 with h4 | h4
      · exact List.mem_of_mem_filter h4
      · exact List.mem_of_mem_filter (List.mem_of_mem_take h4)
    · rw [if_neg h3] at h2
      exact List.mem_of_mem_filter h2
  · rw [if_neg h0] at he
    simp at he

theorem activeFloaters_length_le (ctx : GenCtx) (st : States) :
    (activeFloaters ctx st).length ≤ ctx.num_floaters := by
  unfold activeFloaters
  by_cases h0 : 0 < ctx.num_floaters
  · rw [if_pos h0]
    exact List.length_take_le _ _
  · rw [if_neg h0]
    simp

theorem pool_length_ge (ctx : GenCtx) (st : States)
    (hnodup : ctx.all_employees.Nodup)
    (hreq : ctx.required_for_fixed ≤ ctx.all_employees.length)
    (hnf : ctx.num_floaters = ctx.all_employees.length - ctx.required_for_fixed) :
    ctx.required_for_fixed ≤
      (ctx.all_employees.filter (fun e => ¬ e ∈ activeFloaters ctx st)).length := by
  have hp := List.filter_append_perm
    (fun e => decide (¬ e ∈ activeFloaters ctx st)) ctx.all_employees
  have hlen := hp.length_eq
  rw [List.length_append] at hlen
  have hcong : ctx.all_employees.filter
        (fun x => !decide (¬ x ∈ activeFloaters ctx st))
      = ctx.all_employees.filter (fun x => decide (x ∈ activeFloaters ctx st)) := by
    refine List.filter_congr ?_
    intro x hx
    by_cases h : x ∈ activeFloaters ctx st <;> simp [h]
  rw [hcong] at hlen
  have hsub : (ctx.all_employees.filter
      (fun x => decide (x ∈ activeFloaters ctx st))).length ≤
      (activeFloaters ctx st).length := by
    refine List.Subperm.length_le (List.subperm_of_subset (hnodup.filter _) ?_)
    intro x hx
    have hx2 := List.mem_filter.mp hx
    simpa using hx2.2
  have hal := activeFloaters_length_le ctx st
  omega

theorem monthTeams_of_findSome (ctx : GenCtx) (st : States) (midx : Nat)
    (pool : List Employee) (teams : List (String × List Employee))
    (h : (List.range 100).findSome? (fun a => attemptMonth ctx st midx a pool) =
      some teams) :
    ∃ avail, assignShifts ctx st ctx.desirable_shifts avail [] = some teams ∧
      avail.Perm pool := by
  obtain ⟨a, ha, hfa⟩ := List.exists_of_findSome?_eq_some h
  unfold attemptMonth at hfa
  simp only [] at hfa
  cases hassign : assignShifts ctx st ctx.desirable_shifts
      (shuffleWith (ctx.rand midx a) pool) [] with
  | none =>
      rw [hassign] at hfa
      exact absurd hfa (by simp)
  | some t =>
      rw [hassign] at hfa
      simp only [] at hfa
      by_cases hd : diversityOk ctx t = true
      · rw [if_pos hd] at hfa
        injection hfa with ht
        subst ht
        exact ⟨_, hassign, shuffleWith_perm _ _⟩
      · rw [if_neg hd] at hfa
        exact absurd hfa (by simp)

theorem monthTeams_lengths (ctx : GenCtx) (st : States) (midx : Nat)
    (pool : List Employee)
    (hds : ctx.num_shifts = ctx.desirable_shifts.length)
    (hlen : ctx.num_shifts * ctx.people_per_shift ≤ pool.length) :
    ∀ p ∈ monthTeams ctx st midx pool, p.2.length = ctx.people_per_shift := by
  intro p hp
  unfold monthTeams at hp
  cases hf : (List.range 100).findSome? (fun a => attemptMonth ctx st midx a pool) with
  | some teams =>
      rw [hf] at hp
      obtain ⟨avail, hassign, -⟩ := monthTeams_of_findSome ctx st midx pool teams hf
      exact assignShifts_lengths ctx st _ _ _ _ hassign (by simp) p hp
  | none =>
      rw [hf] at hp
      exact fallbackTeams_lengths ctx pool hds hlen p hp

theorem monthTeams_keys (ctx : GenCtx) (st : States) (midx : Nat)
    (pool : List Employee) :
    (monthTeams ctx st midx pool).map Prod.fst = ctx.desirable_shifts := by
  unfold monthTeams
  cases hf : (List.range 100).findSome? (fun a => attemptMonth ctx st midx a pool) with
  | some teams =>
      obtain ⟨avail, hassign, -⟩ := monthTeams_of_findSome ctx st midx pool teams hf
      have h := assignShifts_keys ctx st _ _ _ _ hassign
      simpa using h
  | none => exact fallbackTeams_keys ctx pool

theorem buildMonth_assigned_len (ctx : GenCtx)
    (teams fmap : List (String × List Employee))
    (hkeys : teams.map Prod.fst = ctx.desirable_shifts)
    (hlen : ∀ p ∈ teams, p.2.length = ctx.people_per_shift) :
    ∀ p ∈ buildMonth ctx teams fmap,
      p.2.assigned_staff.length = ctx.people_per_shift := by
  intro p hp
  unfold buildMonth at hp
  obtain ⟨s, hs, hse⟩ := List.mem_map.mp hp
  subst hse
  show ((teams.lookup s).getD []).length = ctx.people_per_shift
  have hsk : s ∈ teams.map Prod.fst := by rw [hkeys]; exact hs
  cases hl : teams.lookup s with
  | none =>
      have h := lookup_isSome_of_mem_keys hsk
      rw [hl] at h
      exact absurd h (by simp)
  | some v =>
      have hmem := mem_of_lookup_eq_some hl
      simpa using hlen (s, v) hmem

theorem monthStep_assigned_len (ctx : GenCtx) (st : States) (midx : Nat)
    (hnodup : ctx.all_employees.Nodup)
    (hds : ctx.num_shifts = ctx.desirable_shifts.length)
    (hrc : ctx.required_for_fixed = ctx.num_shifts * ctx.people_per_shift)
    (hnf : ctx.num_floaters = ctx.all_employees.length - ctx.required_for_fixed)
    (hreq : ctx.required_for_fixed ≤ ctx.all_employees.length) :
    ∀ p ∈ (monthStep ctx st midx).2.2,
      p.2.assigned_staff.length = ctx.people_per_shift := by
  intro p hp
  have hpool : ctx.num_shifts * ctx.people_per_shift ≤
      (ctx.all_employees.filter (fun e => ¬ e ∈ activeFloaters ctx st)).length := by
    have := pool_length_ge ctx st hnodup hreq hnf
    omega
  have hp2 : p ∈ buildMonth ctx
      (monthTeams ctx (updateFloaterStates ctx (activeFloaters ctx st) st) midx
        (ctx.all_employees.filter (fun e => ¬ e ∈ activeFloaters ctx st)))
      (floaterMapOf ctx (activeFloaters ctx st)) := hp
  exact buildMonth_assigned_len ctx _ _
    (monthTeams_keys ctx _ midx _)
    (monthTeams_lengths ctx _ midx _ hds hpool) p hp2

theorem genMonths_assigned_len (ctx : GenCtx)
    (hnodup : ctx.all_employees.Nodup)
    (hds : ctx.num_shifts = ctx.desirable_shifts.length)
    (hrc : ctx.required_for_fixed = ctx.num_shifts * ctx.people_per_shift)
    (hnf : ctx.num_floaters = ctx.all_employees.length - ctx.required_for_fixed)
    (hreq : ctx.required_for_fixed ≤ ctx.all_employees.length) :
    ∀ (l : List Nat) (st : States), ∀ m ∈ genMonths ctx l st,
      ∀ p ∈ m.2, p.2.assigned_staff.length = ctx.people_per_shift := by
  intro l
  induction l with
  | nil => intro st m hm; simp [genMonths] at hm
  | cons i rest ih =>
      intro st m hm
      rw [genMonths] at hm
      rcases List.mem_cons.mp hm with h | h
      · subst h
        exact monthStep_assigned_len ctx st i hnodup hds hrc hnf hreq
      · exact ih _ m h

theorem sortedEmployees_nodup {team : Team}
    (hnodup : (team.members.map (fun e => e.id)).Nodup) :
    (sortedEmployees team).Nodup :=
  (List.perm_insertionSort _ _).symm.nodup (hnodup.of_map _)

/-- C4: for every team configuration accepted by
`generate_monthly_assignments` (the roster has no duplicate employees and
the call returns a schedule, which encodes the non-empty-roster, recognized
template, and sufficient-headcount guards) every shift of every generated
month has exactly `people_per_shift` entries in `assigned_staff` — on the
scored-greedy path by the exact-count check, and on the round-robin fallback
path because the pool covers `num_shifts * people_per_shift` slots. -/
theorem assigned_staff_exact_count (team : Team) (months sy sm : Nat)
    (rand : Nat → Nat → Nat → Nat)
    (hnodup : (team.members.map (fun e => e.id)).Nodup) :
    ∀ m ∈ (generate_monthly_assignments team months sy sm rand).getD [],
      ∀ p ∈ m.2, p.2.assigned_staff.length = team.people_per_shift := by
  intro m hm p hp
  unfold generate_monthly_assignments at hm
  cases hg : generateCore team months sy sm rand with
  | none => rw [hg] at hm; simp at hm
  | some core =>
      rw [hg] at hm
      have hm2 : m ∈ core.map (fun q => (q.1, renderMonth q.2)) := by simpa using hm
      obtain ⟨cm, hcm, hmeq⟩ := List.mem_map.mp hm2
      obtain ⟨hcore, -, -, hreq⟩ := generateCore_eq_some hg
      subst hmeq
      have hp2 : p ∈ renderMonth cm.2 := hp
      unfold renderMonth at hp2
      obtain ⟨q, hq, hqe⟩ := List.mem_map.mp hp2
      subst hqe
      have hlen := genMonths_assigned_len (mkGenCtx team sy sm rand)
        (sortedEmployees_nodup hnodup) rfl rfl rfl hreq
        (List.range months) (initStates (mkGenCtx team sy sm rand).all_employees)
        cm (hcore ▸ hcm) q hq
      show (q.2.assigned_staff.map renderEmployee).length = team.people_per_shift
      rw [List.length_map]
      exact hlen

theorem assigned_staff_exact_count_witness :
    (((generate_monthly_assignments exTeamFloat 1 2025 1 exRand).getD []).headD
        ("", [])).2.all
      (fun p => decide (p.2.assigned_staff.length = exTeamFloat.people_per_shift))
      = true := by
  rw [List.all_eq_true]
  intro p hp
  exact decide_eq_true
    (assigned_staff_exact_count exTeamFloat 1 2025 1 exRand (by decide)
      (((generate_monthly_assignments exTeamFloat 1 2025 1 exRand).getD []).headD ("", []))
      (by decide) p hp)

theorem mem_floaterMapOf {ctx : GenCtx} {active : List Employee} {s : String}
    {l : List Employee} (h : (s, l) ∈ floaterMapOf ctx active) :
    ∀ e ∈ l, e ∈ active := by
  unfold floaterMapOf at h
  obtain ⟨q, hq, hqe⟩ := List.mem_map.mp h
  have h2 : (active.enum.filter (fun q2 => q2.1 % ctx.num_shifts = q.1)).map
      (fun q2 => q2.2) = l := congrArg Prod.snd hqe
  intro e he
  rw [← h2] at he
  exact (bucketOf_sublist active ctx.num_shifts q.1).mem he

theorem monthStep_floaters_mem (ctx : GenCtx) (st : States) (midx : Nat) :
    ∀ p ∈ (monthStep ctx st midx).2.2, ∀ e ∈ p.2.floaters,
      e ∈ floaterCandidates ctx := by
  intro p hp e he
  have hp2 : p ∈ buildMonth ctx
      (monthTeams ctx (updateFloaterStates ctx (activeFloaters ctx st) st) midx
        (ctx.all_employees.filter (fun e => ¬ e ∈ activeFloaters ctx st)))
      (floaterMapOf ctx (activeFloaters ctx st)) := hp
  unfold buildMonth at hp2
  obtain ⟨s, hs, hse⟩ := List.mem_map.mp hp2
  subst hse
  have he2 : e ∈ ((floaterMapOf ctx (activeFloaters ctx st)).lookup s).getD [] := he
  cases hl : (floaterMapOf ctx (activeFloaters ctx st)).lookup s with
  | none =>
      rw [hl] at he2
      simp at he2
  | some v =>
      rw [hl] at he2
      simp only [Option.getD_some] at he2
      exact activeFloaters_subset ctx st e
        (mem_floaterMapOf (mem_of_lookup_eq_some hl) e he2)

theorem genMonths_floaters_mem (ctx : GenCtx) :
    ∀ (l : List Nat) (st : States), ∀ m ∈ genMonths ctx l st,
      ∀ p ∈ m.2, ∀ e ∈ p.2.floaters, e ∈ floaterCandidates ctx := by
  intro l
  induction l with
  | nil => intro st m hm; simp [genMonths] at hm
  | cons i rest ih =>
      intro st m hm
      rw [genMonths] at hm
      rcases List.mem_cons.mp hm with h | h
      · subst h
        exact monthStep_floaters_mem ctx st i
      · exact ih _ m h

theorem sorted_headD_le {l : List Nat} {a : Nat} (hs : List.Sorted (· ≤ ·) l)
    (ha : a ∈ l) (d : Nat) : l.headD d ≤ a := by
  cases l with
  | nil => simp at ha
  | cons x rest =>
      rcases List.mem_cons.mp ha with h | h
      · subst h; exact Nat.le_refl _
      · exact (List.sorted_cons.mp hs).1 a h

theorem topHierarchyLevelOf_le (team : Team) :
    ∀ e ∈ team.members, topHierarchyLevelOf team ≤ e.designation.hierarchy_level := by
  intro e he
  have he2 : e ∈ sortedEmployees team :=
    (List.perm_insertionSort _ _).symm.mem_iff.mp he
  have hl : e.designation.hierarchy_level ∈ distinctLevelsOf (sortedEmployees team) := by
    unfold distinctLevelsOf
    have hmem : e.designation.hierarchy_level ∈
        ((sortedEmployees team).map (fun e => e.designation.hierarchy_level)).dedup :=
      List.mem_dedup.mpr (List.mem_map.mpr ⟨e, he2, rfl⟩)
    exact (List.perm_insertionSort _ _).symm.mem_iff.mp hmem
  exact sorted_headD_le (List.sorted_insertionSort _ _) hl 0

/-- C5: no employee whose hierarchy level is the most senior level present
in the team (team rank 1, the minimum level among the roster — first
conjunct) ever appears in any month's floaters list of any shift of a
generated schedule. -/
theorem rank_one_never_floats (team : Team) (months sy sm : Nat)
    (rand : Nat → Nat → Nat → Nat) :
    (∀ e ∈ team.members, topHierarchyLevelOf team ≤ e.designation.hierarchy_level) ∧
    ∀ m ∈ (generateCore team months sy sm rand).getD [],
      ∀ p ∈ m.2, ∀ e ∈ p.2.floaters,
        e.designation.hierarchy_level ≠ topHierarchyLevelOf team := by
  refine ⟨topHierarchyLevelOf_le team, ?_⟩
  intro m hm p hp e he
  cases hg : generateCore team months sy sm rand with
  | none => rw [hg] at hm; simp at hm
  | some core =>
      rw [hg] at hm
      simp only [Option.getD_some] at hm
      obtain ⟨hcore, -, -, -⟩ := generateCore_eq_some hg
      have hcand := genMonths_floaters_mem (mkGenCtx team sy sm rand)
        (List.range months) (initStates (mkGenCtx team sy sm rand).all_employees)
        m (hcore ▸ hm) p hp e he
      have h2 := List.mem_filter.mp hcand
      simpa using h2.2

theorem rank_one_never_floats_witness :
    (exEmp 4 "d" 2).designation.hierarchy_level ≠ topHierarchyLevelOf exTeamFloat :=
  (rank_one_never_floats exTeamFloat 1 2025 1 exRand).2
    (((generateCore exTeamFloat 1 2025 1 exRand).getD []).headD ("", []))
    (by decide)
    ((((generateCore exTeamFloat 1 2025 1 exRand).getD []).headD ("", [])).2.headD
      ("", ⟨[], []⟩))
    (by decide)
    (exEmp 4 "d" 2)
    (by decide)

theorem map_lookup_getD_eq_values {β : Type} (kv : List (String × β)) (d : β)
    (hk : (kv.map Prod.fst).Nodup) :
    (kv.map Prod.fst).map (fun s => (kv.lookup s).getD d) = kv.map Prod.snd := by
  induction kv with
  | nil => rfl
  | cons p rest ih =>
      rw [List.map_cons] at hk
      obtain ⟨hnot, hrest⟩ := List.nodup_cons.mp hk
      rw [List.map_cons, List.map_cons, List.map_cons]
      congr 1
      · rw [List.lookup]
        simp
      · have hstep : ∀ s ∈ rest.map Prod.fst,
            (((p :: rest).lookup s).getD d) = ((rest.lookup s).getD d) := by
          intro s hs
          rw [List.lookup]
          cases hb : s == p.1 with
          | true => exact absurd (eq_of_beq hb ▸ hs) hnot
          | false => rfl
        rw [List.map_congr_left hstep]
        exact ih hrest

theorem desirableShiftsOf_nodup (team : Team) : (desirableShiftsOf team).Nodup :=
  List.Nodup.filter _ (by decide)

theorem buildMonth_floaters_eq (ctx : GenCtx)
    (teams fmap : List (String × List Employee))
    (hkeys : fmap.map Prod.fst = ctx.desirable_shifts)
    (hdsn : ctx.desirable_shifts.Nodup) :
    monthFloatersE (buildMonth ctx teams fmap) = (fmap.map Prod.snd).flatten := by
  unfold monthFloatersE buildMonth
  rw [List.map_map]
  have h1 : ∀ s ∈ ctx.desirable_shifts,
      ((fun p : String × CoreShift => p.2.floaters) ∘ fun s =>
        (s, (⟨(teams.lookup s).getD [], (fmap.lookup s).getD []⟩ : CoreShift))) s
      = (fun s => ((fmap.lookup s).getD [])) s :=
    fun s _ => rfl
  rw [List.map_congr_left h1, ← hkeys,
    map_lookup_getD_eq_values fmap [] (by rw [hkeys]; exact hdsn)]

theorem buildMonth_assigned_eq (ctx : GenCtx)
    (teams fmap : List (String × List Employee))
    (hkeys : teams.map Prod.fst = ctx.desirable_shifts)
    (hdsn : ctx.desirable_shifts.Nodup) :
    monthAssignedE (buildMonth ctx teams fmap) = (teams.map Prod.snd).flatten := by
  unfold monthAssignedE buildMonth
  rw [List.map_map]
  have h1 : ∀ s ∈ ctx.desirable_shifts,
      ((fun p : String × CoreShift => p.2.assigned_staff) ∘ fun s =>
        (s, (⟨(teams.lookup s).getD [], (fmap.lookup s).getD []⟩ : CoreShift))) s
      = (fun s => ((teams.lookup s).getD [])) s :=
    fun s _ => rfl
  rw [List.map_congr_left h1, ← hkeys,
    map_lookup_getD_eq_values teams [] (by rw [hkeys]; exact hdsn)]

theorem floaterMapOf_keys (ctx : GenCtx) (active : List Employee) :
    (floaterMapOf ctx active).map Prod.fst = ctx.desirable_shifts := by
  unfold floaterMapOf
  rw [List.map_map]
  have h : ∀ p ∈ ctx.desirable_shifts.enum,
      (Prod.fst ∘ fun p : Nat × String => (p.2,
        (active.enum.filter (fun q => q.1 % ctx.num_shifts = p.1)).map (fun q => q.2))) p
      = Prod.snd p :=
    fun p _ => rfl
  rw [List.map_congr_left h, List.enum_map_snd]

theorem floaterMapOf_values (ctx : GenCtx) (active : List Employee) :
    (floaterMapOf ctx active).map Prod.snd =
      (List.range ctx.desirable_shifts.length).map
        (fun j => bucketOf active ctx.num_shifts j) := by
  unfold floaterMapOf
  rw [List.map_map]
  have h : ∀ p ∈ ctx.desirable_shifts.enum,
      (Prod.snd ∘ fun p : Nat × String => (p.2,
        (active.enum.filter (fun q => q.1 % ctx.num_shifts = p.1)).map (fun q => q.2))) p
      = ((fun j => bucketOf active ctx.num_shifts j) ∘ Prod.fst) p :=
    fun p _ => rfl
  rw [List.map_congr_left h, ← List.map_map, List.enum_map_fst]

theorem fallbackTeams_values (ctx : GenCtx) (pool : List Employee) :
    (fallbackTeams ctx pool).map Prod.snd =
      (List.range ctx.desirable_shifts.length).map
        (fun j => (bucketOf pool ctx.num_shifts j).take ctx.people_per_shift) := by
  unfold fallbackTeams
  rw [List.map_map]
  have h : ∀ p ∈ ctx.desirable_shifts.enum,
      (Prod.snd ∘ fun p : Nat × String => (p.2,
        ((pool.enum.filter (fun q => q.1 % ctx.num_shifts = p.1)).map (fun q => q.2)).take
          ctx.people_per_shift)) p
      = ((fun j => (bucketOf pool ctx.num_shifts j).take ctx.people_per_shift) ∘ Prod.fst) p :=
    fun p _ => rfl
  rw [List.map_congr_left h, ← List.map_map, List.enum_map_fst]

theorem flatten_length_of_const {teams : List (String × List Employee)} {pps : Nat}
    (h : ∀ p ∈ teams, p.2.length = pps) :
    ((teams.map (fun p => p.2)).flatten).length = teams.length * pps := by
  induction teams with
  | nil => simp
  | cons p rest ih =>
      rw [List.map_cons, List.flatten_cons, List.length_append,
        h p (List.mem_cons_self _ _), ih (fun q hq => h q (List.mem_cons_of_mem _ hq)),
        List.length_cons]
      ring

theorem extendedEligible_nodup (ctx : GenCtx) (st : States)
    (hnodup : ctx.all_employees.Nodup) : (extendedEligible ctx st).Nodup := by
  have hcand : (floaterCandidates ctx).Nodup := hnodup.filter _
  have hel : (eligibleFloaters ctx st).Nodup := hcand.filter _
  unfold extendedEligible
  by_cases h3 : (eligibleFloaters ctx st).length < ctx.num_floaters
  · rw [if_pos h3]
    rw [List.nodup_append]
    refine ⟨hel, ((List.take_sublist _ _).nodup (hcand.filter _)), ?_⟩
    intro e he1 he2
    have he3 := List.mem_of_mem_take he2
    have he4 := List.mem_filter.mp he3
    exact absurd he1 (by simpa using he4.2)
  · rw [if_neg h3]
    exact hel

theorem activeFloaters_nodup (ctx : GenCtx) (st : States)
    (hnodup : ctx.all_employees.Nodup) : (activeFloaters ctx st).Nodup := by
  unfold activeFloaters
  by_cases h0 : 0 < ctx.num_floaters
  · rw [if_pos h0]
    exact (List.take_sublist _ _).nodup
      ((List.perm_insertionSort _ _).symm.nodup (extendedEligible_nodup ctx st hnodup))
  · rw [if_neg h0]
    exact List.nodup_nil

theorem eligibleFloaters_filter_eq (ctx : GenCtx) (st : States) :
    (floaterCandidates ctx).filter (fun e => e ∈ eligibleFloaters ctx st)
      = eligibleFloaters ctx st := by
  have h : ∀ e ∈ floaterCandidates ctx,
      decide (e ∈ eligibleFloaters ctx st)
        = ((st e.id).was_floater_last_month = false : Bool) := by
    intro e he
    by_cases hw : (st e.id).was_floater_last_month = false
    · have hmem : e ∈ eligibleFloaters ctx st :=
        List.mem_filter.mpr ⟨he, by simpa using hw⟩
      simp [hmem, hw]
    · have hmem : ¬ e ∈ eligibleFloaters ctx st := by
        intro hmem
        exact hw (by simpa using (List.mem_filter.mp hmem).2)
      simp [hmem, hw]
  rw [List.filter_congr h]
  rfl

theorem activeFloaters_length_eq (ctx : GenCtx) (st : States)
    (hcand : ctx.num_floaters ≤ (floaterCandidates ctx).length) :
    (activeFloaters ctx st).length = ctx.num_floaters := by
  unfold activeFloaters
  by_cases h0 : 0 < ctx.num_floaters
  · rw [if_pos h0]
    rw [List.length_take, (List.perm_insertionSort _ _).length_eq]
    have hext : ctx.num_floaters ≤ (extendedEligible ctx st).length := by
      unfold extendedEligible
      by_cases h3 : (eligibleFloaters ctx st).length < ctx.num_floaters
      · rw [if_pos h3]
        rw [List.length_append, List.length_take]
        have hsplit := (List.filter_append_perm
          (fun e => decide (e ∈ eligibleFloaters ctx st)) (floaterCandidates ctx)).length_eq
        rw [List.length_append, eligibleFloaters_filter_eq] at hsplit
        have hcompl : ((floaterCandidates ctx).filter
            (fun e => !decide (e ∈ eligibleFloaters ctx st))).length
            = ((floaterCandidates ctx).filter
              (fun e => ¬ e ∈ eligibleFloaters ctx st)).length := by
          congr 1
          refine List.filter_congr ?_
          intro e he
          by_cases hmem : e ∈ eligibleFloaters ctx st <;> simp [hmem]
        omega
      · rw [if_neg h3]
        omega
    omega
  · rw [if_neg h0]
    simp
    omega

theorem all_filter_mem_active_perm (ctx : GenCtx) (st : States)
    (hnodup : ctx.all_employees.Nodup) :
    (ctx.all_employees.filter (fun e => decide (e ∈ activeFloaters ctx st))).Perm
      (activeFloaters ctx st) := by
  rw [List.perm_ext_iff_of_nodup (hnodup.filter _)
    (activeFloaters_nodup ctx st hnodup)]
  intro e
  constructor
  · intro h
    have h2 := List.mem_filter.mp h
    simpa using h2.2
  · intro h
    refine List.mem_filter.mpr ⟨?_, by simpa using h⟩
    exact List.mem_of_mem_filter (activeFloaters_subset ctx st e h)

theorem pool_length_eq (ctx : GenCtx) (st : States)
    (hnodup : ctx.all_employees.Nodup)
    (hreq : ctx.required_for_fixed ≤ ctx.all_employees.length)
    (hnf : ctx.num_floaters = ctx.all_employees.length - ctx.required_for_fixed)
    (hact : (activeFloaters ctx st).length = ctx.num_floaters) :
    (ctx.all_employees.filter (fun e => ¬ e ∈ activeFloaters ctx st)).length
      = ctx.required_for_fixed := by
  have hp := (List.filter_append_perm
    (fun e => decide (¬ e ∈ activeFloaters ctx st)) ctx.all_employees).length_eq
  rw [List.length_append] at hp
  have hcong : ctx.all_employees.filter
        (fun x => !decide (¬ x ∈ activeFloaters ctx st))
      = ctx.all_employees.filter (fun x => decide (x ∈ activeFloaters ctx st)) := by
    refine List.filter_congr ?_
    intro x hx
    by_cases h : x ∈ activeFloaters ctx st <;> simp [h]
  rw [hcong, (all_filter_mem_active_perm ctx st hnodup).length_eq, hact] at hp
  omega

theorem monthTeams_flatten_sub (ctx : GenCtx) (st : States) (midx : Nat)
    (pool : List Employee) :
    ∀ e ∈ ((monthTeams ctx st midx pool).map (fun p => p.2)).flatten, e ∈ pool := by
  intro e he
  unfold monthTeams at he
  cases hf : (List.range 100).findSome? (fun a => attemptMonth ctx st midx a pool) with
  | some teams =>
      rw [hf] at he
      obtain ⟨avail, hassign, hperm⟩ := monthTeams_of_findSome ctx st midx pool teams hf
      obtain ⟨rem, hrem⟩ := assignShifts_flatten ctx st _ _ _ _ hassign
      simp only [List.map_nil, List.flatten_nil, List.nil_append] at hrem
      exact hperm.mem_iff.mp (hrem.mem_iff.mp (List.mem_append_left rem he))
  | none =>
      rw [hf] at he
      obtain ⟨l, hl, hel⟩ := List.mem_flatten.mp he
      rw [fallbackTeams_values] at hl
      obtain ⟨j, hj, hje⟩ := List.mem_map.mp hl
      rw [← hje] at hel
      exact (bucketOf_sublist pool ctx.num_shifts j).mem
        (List.mem_of_mem_take hel)

theorem monthTeams_flatten_nodup (ctx : GenCtx) (st : States) (midx : Nat)
    (pool : List Employee) (hpool : pool.Nodup)
    (hds : ctx.num_shifts = ctx.desirable_shifts.length) :
    (((monthTeams ctx st midx pool).map (fun p => p.2)).flatten).Nodup := by
  unfold monthTeams
  cases hf : (List.range 100).findSome? (fun a => attemptMonth ctx st midx a pool) with
  | some teams =>
      obtain ⟨avail, hassign, hperm⟩ := monthTeams_of_findSome ctx st midx pool teams hf
      obtain ⟨rem, hrem⟩ := assignShifts_flatten ctx st _ _ _ _ hassign
      simp only [List.map_nil, List.flatten_nil, List.nil_append] at hrem
      have hnd : ((teams.map (fun p => p.2)).flatten ++ rem).Nodup :=
        (hrem.trans hperm).symm.nodup hpool
      exact (List.nodup_append.mp hnd).1
  | none =>
      rw [fallbackTeams_values, ← hds]
      exact buckets_flatten_nodup hpool ctx.num_shifts _
        (fun j => List.take_sublist _ _)

theorem monthTeams_flatten_perm (ctx : GenCtx) (st : States) (midx : Nat)
    (pool : List Employee) (hpool : pool.Nodup)
    (hds : ctx.num_shifts = ctx.desirable_shifts.length)
    (hn0 : 0 < ctx.num_shifts)
    (hexact : pool.length = ctx.num_shifts * ctx.people_per_shift) :
    (((monthTeams ctx st midx pool).map (fun p => p.2)).flatten).Perm pool := by
  unfold monthTeams
  cases hf : (List.range 100).findSome? (fun a => attemptMonth ctx st midx a pool) with
  | some teams =>
      obtain ⟨avail, hassign, hperm⟩ := monthTeams_of_findSome ctx st midx pool teams hf
      obtain ⟨rem, hrem⟩ := assignShifts_flatten ctx st _ _ _ _ hassign
      simp only [List.map_nil, List.flatten_nil, List.nil_append] at hrem
      have hlens := assignShifts_lengths ctx st _ _ _ _ hassign (by simp)
      have hkeys := assignShifts_keys ctx st _ _ _ _ hassign
      simp only [List.map_nil, List.nil_append] at hkeys
      have htlen : teams.length = ctx.desirable_shifts.length := by
        rw [← hkeys, List.length_map]
      have hflen : ((teams.map (fun p => p.2)).flatten).length =
          teams.length * ctx.people_per_shift := flatten_length_of_const hlens
      have hrlen : rem.length = 0 := by
        have h1 := hrem.length_eq
        have h2 := hperm.length_eq
        rw [List.length_append, hflen, htlen, ← hds] at h1
        omega
      have hrnil : rem = [] := List.length_eq_zero.mp hrlen
      subst hrnil
      rw [List.append_nil] at hrem
      exact hrem.trans hperm
  | none =>
      rw [fallbackTeams_values, ← hds]
      have htake : ∀ j ∈ List.range ctx.num_shifts,
          (bucketOf pool ctx.num_shifts j).take ctx.people_per_shift
            = bucketOf pool ctx.num_shifts j := by
        intro j hj
        refine List.take_of_length_le ?_
        rw [bucketOf_length, hexact,
          range_mod_count_exact ctx.people_per_shift ctx.num_shifts j
            (List.mem_range.mp hj)]
      rw [List.map_congr_left htake]
      exact buckets_flatten_perm hpool hn0

theorem pool_active_perm (ctx : GenCtx) (st : States)
    (hnodup : ctx.all_employees.Nodup) :
    ((ctx.all_employees.filter (fun e => ¬ e ∈ activeFloaters ctx st)) ++
      activeFloaters ctx st).Perm ctx.all_employees := by
  have hp := List.filter_append_perm
    (fun e => decide (¬ e ∈ activeFloaters ctx st)) ctx.all_employees
  have hcong : ctx.all_employees.filter
        (fun x => !decide (¬ x ∈ activeFloaters ctx st))
      = ctx.all_employees.filter (fun x => decide (x ∈ activeFloaters ctx st)) := by
    refine List.filter_congr ?_
    intro x hx
    by_cases h : x ∈ activeFloaters ctx st <;> simp [h]
  rw [hcong] at hp
  exact (List.Perm.append_left _
    (all_filter_mem_active_perm ctx st hnodup).symm).trans hp

theorem monthStep_partition (ctx : GenCtx) (st : States) (midx : Nat)
    (hnodup : ctx.all_employees.Nodup)
    (hdsn : ctx.desirable_shifts.Nodup)
    (hds : ctx.num_shifts = ctx.desirable_shifts.length)
    (hn0 : 0 < ctx.num_shifts)
    (hnf : ctx.num_floaters = ctx.all_employees.length - ctx.required_for_fixed)
    (hrc : ctx.required_for_fixed = ctx.num_shifts * ctx.people_per_shift)
    (hreq : ctx.required_for_fixed ≤ ctx.all_employees.length) :
    (monthEmployees (monthStep ctx st midx).2.2).Nodup ∧
    (ctx.num_floaters ≤ (floaterCandidates ctx).length →
      (monthEmployees (monthStep ctx st midx).2.2).Perm ctx.all_employees) := by
  have hpoolnd : (ctx.all_employees.filter
      (fun e => ¬ e ∈ activeFloaters ctx st)).Nodup := hnodup.filter _
  have hactnd := activeFloaters_nodup ctx st hnodup
  have hA : monthAssignedE (monthStep ctx st midx).2.2 =
      ((monthTeams ctx (updateFloaterStates ctx (activeFloaters ctx st) st) midx
        (ctx.all_employees.filter (fun e => ¬ e ∈ activeFloaters ctx st))).map
          Prod.snd).flatten :=
    buildMonth_assigned_eq ctx _ _ (monthTeams_keys ctx _ midx _) hdsn
  have hF : monthFloatersE (monthStep ctx st midx).2.2 =
      ((floaterMapOf ctx (activeFloaters ctx st)).map Prod.snd).flatten :=
    buildMonth_floaters_eq ctx _ _ (floaterMapOf_keys ctx _) hdsn
  have hFv : ((floaterMapOf ctx (activeFloaters ctx st)).map Prod.snd).flatten =
      ((List.range ctx.num_shifts).map
        (fun j => bucketOf (activeFloaters ctx st) ctx.num_shifts j)).flatten := by
    rw [floaterMapOf_values, ← hds]
  have hsndeq : ∀ p : String × List Employee, (fun p : String × List Employee => p.2) p
      = Prod.snd p := fun p => rfl
  have hFnd : (monthFloatersE (monthStep ctx st midx).2.2).Nodup := by
    rw [hF, hFv]
    exact buckets_flatten_nodup hactnd ctx.num_shifts _ (fun j => List.Sublist.refl _)
  have hAnd : (monthAssignedE (monthStep ctx st midx).2.2).Nodup := by
    rw [hA]
    exact monthTeams_flatten_nodup ctx _ midx _ hpoolnd hds
  have hAsub : ∀ e ∈ monthAssignedE (monthStep ctx st midx).2.2,
      e ∈ ctx.all_employees.filter (fun e => ¬ e ∈ activeFloaters ctx st) := by
    intro e he
    rw [hA] at he
    exact monthTeams_flatten_sub ctx _ midx _ e he
  have hFsub : ∀ e ∈ monthFloatersE (monthStep ctx st midx).2.2,
      e ∈ activeFloaters ctx st := by
    intro e he
    rw [hF, hFv] at he
    obtain ⟨l, hl, hel⟩ := List.mem_flatten.mp he
    obtain ⟨j, hj, hje⟩ := List.mem_map.mp hl
    rw [← hje] at hel
    exact (bucketOf_sublist _ _ _).mem hel
  have hdisj : List.Disjoint (monthAssignedE (monthStep ctx st midx).2.2)
      (monthFloatersE (monthStep ctx st midx).2.2) := by
    intro e he1 he2
    have h1 := List.mem_filter.mp (hAsub e he1)
    have h2 := hFsub e he2
    exact absurd h2 (by simpa using h1.2)
  constructor
  · exact List.nodup_append.mpr ⟨hAnd, hFnd, hdisj⟩
  · intro hcand
    have hact := activeFloaters_length_eq ctx st hcand
    have hpoollen := pool_length_eq ctx st hnodup hreq hnf hact
    have hexact : (ctx.all_employees.filter
        (fun e => ¬ e ∈ activeFloaters ctx st)).length
        = ctx.num_shifts * ctx.people_per_shift := by
      rw [hpoollen, hrc]
    have hAperm : (monthAssignedE (monthStep ctx st midx).2.2).Perm
        (ctx.all_employees.filter (fun e => ¬ e ∈ activeFloaters ctx st)) := by
      rw [hA]
      exact monthTeams_flatten_perm ctx _ midx _ hpoolnd hds hn0 hexact
    have hFperm : (monthFloatersE (monthStep ctx st midx).2.2).Perm
        (activeFloaters ctx st) := by
      rw [hF, hFv]
      exact buckets_flatten_perm hactnd hn0
    exact ((hAperm.append hFperm).trans (pool_active_perm ctx st hnodup))

theorem genMonths_partition (ctx : GenCtx)
    (hnodup : ctx.all_employees.Nodup)
    (hdsn : ctx.desirable_shifts.Nodup)
    (hds : ctx.num_shifts = ctx.desirable_shifts.length)
    (hn0 : 0 < ctx.num_shifts)
    (hnf : ctx.num_floaters = ctx.all_employees.length - ctx.required_for_fixed)
    (hrc : ctx.required_for_fixed = ctx.num_shifts * ctx.people_per_shift)
    (hreq : ctx.required_for_fixed ≤ ctx.all_employees.length) :
    ∀ (l : List Nat) (st : States), ∀ m ∈ genMonths ctx l st,
      (monthEmployees m.2).Nodup ∧
      (ctx.num_floaters ≤ (floaterCandidates ctx).length →
        (monthEmployees m.2).Perm ctx.all_employees) := by
  intro l
  induction l with
  | nil => intro st m hm; simp [genMonths] at hm
  | cons i rest ih =>
      intro st m hm
      rw [genMonths] at hm
      rcases List.mem_cons.mp hm with h | h
      · subst h
        exact monthStep_partition ctx st i hnodup hdsn hds hn0 hnf hrc hreq
      · exact ih _ m h

/-- C10 (amended): in every month of a schedule produced by
`generate_monthly_assignments` under a duplicate-free roster, each roster
employee occurs *at most* once across that month's records (never in two
roles and never on two shifts); and whenever the floater-candidate pool
(employees below the top hierarchy level) is at least as large as the
required floater count, each roster employee occurs *exactly* once (the
month's slots are a permutation of the roster).  When the candidate pool is
short, the selected floaters are fewer than `num_floaters` and the leftover
pool members beyond `num_shifts * people_per_shift` appear in no record at
all, so the exactly-once partition fails. -/
theorem month_partition (team : Team) (months sy sm : Nat)
    (rand : Nat → Nat → Nat → Nat)
    (hnodup : (team.members.map (fun e => e.id)).Nodup) :
    ∀ m ∈ (generateCore team months sy sm rand).getD [],
      (monthEmployees m.2).Nodup ∧
      (numFloatersOf team ≤ (teamFloaterCandidates team).length →
        (monthEmployees m.2).Perm team.members) := by
  intro m hm
  cases hg : generateCore team months sy sm rand with
  | none => rw [hg] at hm; simp at hm
  | some core =>
      rw [hg] at hm
      simp only [Option.getD_some] at hm
      obtain ⟨hcore, -, hn, hreq⟩ := generateCore_eq_some hg
      have hres := genMonths_partition (mkGenCtx team sy sm rand)
        (sortedEmployees_nodup hnodup) (desirableShiftsOf_nodup team) rfl
        (Nat.pos_of_ne_zero hn) rfl rfl hreq
        (List.range months) (initStates (mkGenCtx team sy sm rand).all_employees)
        m (hcore ▸ hm)
      refine ⟨hres.1, fun hcand => ?_⟩
      exact (hres.2 hcand).trans (List.perm_insertionSort _ _)

theorem month_partition_witness :
    (monthEmployees ((((generateCore exTeamFloat 1 2025 1 exRand).getD []).headD
      ("", [])).2)).Nodup ∧
    (monthEmployees ((((generateCore exTeamFloat 1 2025 1 exRand).getD []).headD
      ("", [])).2)).Perm exTeamFloat.members := by
  have h := month_partition exTeamFloat 1 2025 1 exRand (by decide)
    (((generateCore exTeamFloat 1 2025 1 exRand).getD []).headD ("", []))
    (by decide)
  exact ⟨h.1, h.2 (by decide)⟩

/-- C10 counterexample: with four same-level employees on the 3-shift
template (one more than the fixed requirement, but no floater candidate
below the top level) the generated month has three singleton shifts and no
floaters: roster member d appears in no record of the month, so the claimed
exactly-once partition fails. -/
theorem month_partition_counterexample :
    exEmp 4 "d" 1 ∈ exTeam4same.members ∧
    ((generateCore exTeam4same 1 2025 1 exRand).getD []).length = 1 ∧
    List.count (exEmp 4 "d" 1)
      (monthEmployees ((((generateCore exTeam4same 1 2025 1 exRand).getD []).headD
        ("", [])).2)) = 0 := by
  refine ⟨by decide, by decide, by decide⟩

theorem setState_same (st : States) (i : Nat) (v : EmpState) :
    (setState st i v) i = v := by
  unfold setState
  simp

theorem setState_other (st : States) (i j : Nat) (v : EmpState) (h : j ≠ i) :
    (setState st i v) j = st j := by
  unfold setState
  simp [h]

theorem updFS_fold_other (active : List Employee) :
    ∀ (es : List Employee) (st : States) (i : Nat), (∀ e ∈ es, e.id ≠ i) →
      (es.foldl (fun st e =>
        let s := st e.id
        if e ∈ active then
          setState st e.id
            { s with was_floater_last_month := true, months_since_floater := 0 }
        else
          setState st e.id
            { s with was_floater_last_month := false,
                     months_since_floater := s.months_since_floater + 1 }) st) i
        = st i := by
  intro es
  induction es with
  | nil => intro st i h; rfl
  | cons y ys ih =>
      intro st i h
      rw [List.foldl_cons]
      have hy : y.id ≠ i := h y (List.mem_cons_self _ _)
      have hrest : ∀ e ∈ ys, e.id ≠ i := fun e he => h e (List.mem_cons_of_mem _ he)
      rw [ih _ i hrest]
      by_cases hc : y ∈ active <;>
        simp only [hc, if_pos, if_neg, if_true, if_false] <;>
        exact setState_other st y.id i _ (fun hh => hy hh.symm)

theorem updFS_fold_eval (active : List Employee) :
    ∀ (es : List Employee) (st : States), (es.map (fun e => e.id)).Nodup →
      ∀ e ∈ es,
        ((es.foldl (fun st e =>
          let s := st e.id
          if e ∈ active then
            setState st e.id
              { s with was_floater_last_month := true, months_since_floater := 0 }
          else
            setState st e.id
              { s with was_floater_last_month := false,
                       months_since_floater := s.months_since_floater + 1 }) st)
          e.id).was_floater_last_month = decide (e ∈ active) := by
  intro es
  induction es with
  | nil => intro st hnd e he; simp at he
  | cons y ys ih =>
      intro st hnd e he
      rw [List.map_cons] at hnd
      obtain ⟨hnot, hrest⟩ := List.nodup_cons.mp hnd
      rw [List.foldl_cons]
      rcases List.mem_cons.mp he with h | h
      · subst h
        have hother : ∀ x ∈ ys, x.id ≠ e.id := by
          intro x hx hxe
          exact hnot (hxe ▸ List.mem_map.mpr ⟨x, hx, rfl⟩)
        rw [updFS_fold_other active ys _ e.id hother]
        by_cases hc : e ∈ active
        · rw [if_pos hc, setState_same]
          simp [hc]
        · rw [if_neg hc, setState_same]
          simp [hc]
      · have hne : y.id ≠ e.id := by
          intro hye
          exact hnot (hye ▸ List.mem_map.mpr ⟨e, h, rfl⟩)
        by_cases hc : y ∈ active
        · simp only [hc, if_true]
          exact ih _ hrest e h
        · simp only [hc, if_false]
          exact ih _ hrest e h

theorem updateFloaterStates_was (ctx : GenCtx) (active : List Employee) (st : States)
    (hnd : (ctx.all_employees.map (fun e => e.id)).Nodup) :
    ∀ e ∈ ctx.all_employees,
      ((updateFloaterStates ctx active st) e.id).was_floater_last_month
        = decide (e ∈ active) :=
  updFS_fold_eval active ctx.all_employees st hnd

theorem updSS_inner_was (shift : String) :
    ∀ (es : List Employee) (st : States) (i : Nat),
      ((es.foldl (fun st e =>
        let s := st e.id
        if s.current_shift = some shift then
          setState st e.id
            { s with months_on_current_shift := s.months_on_current_shift + 1 }
        else
          setState st e.id
            { s with last_shift := s.current_shift, current_shift := some shift,
                     months_on_current_shift := 1 }) st) i).was_floater_last_month
        = (st i).was_floater_last_month := by
  intro es
  induction es with
  | nil => intro st i; rfl
  | cons y ys ih =>
      intro st i
      rw [List.foldl_cons]
      rw [ih]
      by_cases hc : (st y.id).current_shift = some shift <;>
        simp only [hc, if_true, if_false, if_pos, if_neg]
      · by_cases hi : i = y.id
        · subst hi; rw [setState_same]
        · rw [setState_other _ _ _ _ hi]
      · by_cases hi : i = y.id
        · subst hi; rw [setState_same]
        · rw [setState_other _ _ _ _ hi]

theorem updateShiftStates_was (teams : List (String × List Employee)) (st : States) :
    ∀ i, ((updateShiftStates teams st) i).was_floater_last_month
      = (st i).was_floater_last_month := by
  induction teams generalizing st with
  | nil => intro i; rfl
  | cons p rest ih =>
      intro i
      unfold updateShiftStates
      rw [List.foldl_cons]
      have h1 := ih (p.2.foldl (fun st e =>
        let s := st e.id
        if s.current_shift = some p.1 then
          setState st e.id
            { s with months_on_current_shift := s.months_on_current_shift + 1 }
        else
          setState st e.id
            { s with last_shift := s.current_shift, current_shift := some p.1,
                     months_on_current_shift := 1 }) st)
      unfold updateShiftStates at h1
      rw [h1, updSS_inner_was]

theorem initStates_was_false (emps : List Employee) :
    ∀ i, ((initStates emps) i).was_floater_last_month = false := by
  unfold initStates
  suffices h : ∀ (es : List Employee) (st : States),
      (∀ i, (st i).was_floater_last_month = false) →
      ∀ i, ((es.foldl (fun f e => setState f e.id (initState e)) st) i).was_floater_last_month
        = false by
    exact h emps _ (fun i => rfl)
  intro es
  induction es with
  | nil => intro st hst i; exact hst i
  | cons y ys ih =>
      intro st hst i
      rw [List.foldl_cons]
      refine ih _ ?_ i
      intro j
      by_cases hj : j = y.id
      · subst hj; rw [setState_same]; rfl
      · rw [setState_other _ _ _ _ hj]; exact hst j

theorem buckets_flatten_mem_iff {src : List Employee} {n : Nat} (hn : 0 < n)
    (e : Employee) :
    e ∈ ((List.range n).map (fun j => bucketOf src n j)).flatten ↔ e ∈ src := by
  constructor
  · intro h
    obtain ⟨l, hl, hel⟩ := List.mem_flatten.mp h
    obtain ⟨j, hj, hje⟩ := List.mem_map.mp hl
    rw [← hje] at hel
    exact (bucketOf_sublist src n j).mem hel
  · intro h
    obtain ⟨i, hi⟩ := List.mem_iff_getElem?.mp h
    refine List.mem_flatten.mpr ⟨bucketOf src n (i % n), ?_, ?_⟩
    · exact List.mem_map.mpr ⟨i % n, List.mem_range.mpr (Nat.mod_lt _ hn), rfl⟩
    · exact mem_bucketOf.mpr ⟨i, hi, rfl⟩

theorem monthFloatersE_mem_iff (ctx : GenCtx) (st : States) (midx : Nat)
    (hdsn : ctx.desirable_shifts.Nodup)
    (hds : ctx.num_shifts = ctx.desirable_shifts.length)
    (hn0 : 0 < ctx.num_shifts) (e : Employee) :
    e ∈ monthFloatersE (monthStep ctx st midx).2.2 ↔ e ∈ activeFloaters ctx st := by
  have hF : monthFloatersE (monthStep ctx st midx).2.2 =
      ((floaterMapOf ctx (activeFloaters ctx st)).map Prod.snd).flatten :=
    buildMonth_floaters_eq ctx _ _ (floaterMapOf_keys ctx _) hdsn
  rw [hF, floaterMapOf_values, ← hds]
  exact buckets_flatten_mem_iff hn0 e

theorem eligible_length_eq_notprev (ctx : GenCtx) (st : States)
    (prev : List Employee)
    (hInv : ∀ e ∈ ctx.all_employees,
      ((st e.id).was_floater_last_month = true ↔ e ∈ prev)) :
    (eligibleFloaters ctx st).length =
      ((floaterCandidates ctx).filter (fun e => ¬ e ∈ prev)).length := by
  unfold eligibleFloaters
  congr 1
  refine List.filter_congr ?_
  intro e he
  have hall : e ∈ ctx.all_employees := List.mem_of_mem_filter he
  have h := hInv e hall
  by_cases hp : e ∈ prev
  · have hw : (st e.id).was_floater_last_month = true := h.mpr hp
    simp [hw, hp]
  · have hw : (st e.id).was_floater_last_month = false := by
      cases hh : (st e.id).was_floater_last_month
      · rfl
      · exact absurd (h.mp hh) hp
    simp [hw, hp]

theorem active_sub_eligible (ctx : GenCtx) (st : States)
    (hno : ¬ (eligibleFloaters ctx st).length < ctx.num_floaters) :
    ∀ x ∈ activeFloaters ctx st, x ∈ eligibleFloaters ctx st := by
  intro x hx
  unfold activeFloaters at hx
  by_cases h0 : 0 < ctx.num_floaters
  · rw [if_pos h0] at hx
    have h1 := (List.perm_insertionSort _ _).mem_iff.mp (List.mem_of_mem_take hx)
    unfold extendedEligible at h1
    rw [if_neg hno] at h1
    exact h1
  · rw [if_neg h0] at hx
    simp at hx

theorem genMonths_chain (ctx : GenCtx)
    (hnid : (ctx.all_employees.map (fun e => e.id)).Nodup)
    (hdsn : ctx.desirable_shifts.Nodup)
    (hds : ctx.num_shifts = ctx.desirable_shifts.length)
    (hn0 : 0 < ctx.num_shifts) :
    ∀ (l : List Nat) (st : States) (prev : List Employee),
      (∀ e ∈ ctx.all_employees,
        ((st e.id).was_floater_last_month = true ↔ e ∈ prev)) →
      floaterChainOk ctx prev (genMonths ctx l st) := by
  intro l
  induction l with
  | nil =>
      intro st prev hInv
      rw [genMonths]
      trivial
  | cons i rest ih =>
      intro st prev hInv
      rw [genMonths]
      refine ⟨?_, ?_⟩
      · rintro ⟨x, hxm, hxp⟩
        have hxa : x ∈ activeFloaters ctx st :=
          (monthFloatersE_mem_iff ctx st i hdsn hds hn0 x).mp hxm
        by_contra hno
        have helig := eligible_length_eq_notprev ctx st prev hInv
        have hno2 : ¬ (eligibleFloaters ctx st).length < ctx.num_floaters := by
          omega
        have hxe := active_sub_eligible ctx st hno2 x hxa
        have hxf := (List.mem_filter.mp hxe).2
        have hxall : x ∈ ctx.all_employees :=
          List.mem_of_mem_filter (List.mem_of_mem_filter hxe)
        have hwt : (st x.id).was_floater_last_month = true := (hInv x hxall).mpr hxp
        rw [hwt] at hxf
        simp at hxf
      · refine ih _ _ ?_
        intro e he
        have h1 : (((monthStep ctx st i).1) e.id).was_floater_last_month
            = ((updateFloaterStates ctx (activeFloaters ctx st) st)
                e.id).was_floater_last_month :=
          updateShiftStates_was _ _ e.id
        rw [h1, updateFloaterStates_was ctx _ st hnid e he,
          monthFloatersE_mem_iff ctx st i hdsn hds hn0 e]
        constructor
        · intro hh
          simpa using hh
        · intro hh
          simp [hh]

theorem floaterChain_extract (ctx : GenCtx) :
    ∀ (ms : List (String × CoreMonth)) (prev : List Employee),
      floaterChainOk ctx prev ms →
      ∀ (k : Nat) (m1 m2 : String × CoreMonth),
        ms[k]? = some m1 → ms[k + 1]? = some m2 →
        ∀ x, x ∈ monthFloatersE m1.2 → x ∈ monthFloatersE m2.2 →
        ((floaterCandidates ctx).filter
          (fun e => ¬ e ∈ monthFloatersE m1.2)).length < ctx.num_floaters := by
  intro ms
  induction ms with
  | nil =>
      intro prev h k m1 m2 h1
      simp at h1
  | cons m rest ih =>
      intro prev h k m1 m2 h1 h2 x hx1 hx2
      rw [floaterChainOk] at h
      obtain ⟨hhead, htail⟩ := h
      cases k with
      | zero =>
          have hm1 : m = m1 := by simpa using h1
          subst hm1
          cases rest with
          | nil => simp at h2
          | cons mb rest2 =>
              have hm2 : mb = m2 := by simpa using h2
              subst hm2
              rw [floaterChainOk] at htail
              exact htail.1 ⟨x, hx2, hx1⟩
      | succ k2 =>
          have h1b : rest[k2]? = some m1 := by simpa using h1
          have h2b : rest[k2 + 1]? = some m2 := by simpa using h2
          exact ih _ htail k2 m1 m2 h1b h2b x hx1 hx2

theorem sortedEmployees_ids_nodup {team : Team}
    (h : (team.members.map (fun e => e.id)).Nodup) :
    ((sortedEmployees team).map (fun e => e.id)).Nodup := by
  have hp : ((sortedEmployees team).map (fun e => e.id)).Perm
      (team.members.map (fun e => e.id)) :=
    (List.perm_insertionSort _ _).map _
  exact hp.symm.nodup h

/-- C3: in every schedule produced by `generate_monthly_assignments` over a
duplicate-free roster, no employee appears under floaters in two adjacent
months of the generated sequence unless, at the second month, the set of
floater candidates who were not floaters in the previous month is smaller
than the required floater count (backfill shortage). -/
theorem no_adjacent_floaters (team : Team) (months sy sm : Nat)
    (rand : Nat → Nat → Nat → Nat)
    (hnodup : (team.members.map (fun e => e.id)).Nodup) :
    ∀ (k : Nat) (m1 m2 : String × CoreMonth) (x : Employee),
      ((generateCore team months sy sm rand).getD [])[k]? = some m1 →
      ((generateCore team months sy sm rand).getD [])[k + 1]? = some m2 →
      x ∈ monthFloatersE m1.2 → x ∈ monthFloatersE m2.2 →
      ((teamFloaterCandidates team).filter
        (fun e => ¬ e ∈ monthFloatersE m1.2)).length < numFloatersOf team := by
  intro k m1 m2 x h1 h2 hx1 hx2
  cases hg : generateCore team months sy sm rand with
  | none => rw [hg] at h1; simp at h1
  | some core =>
      rw [hg] at h1 h2
      simp only [Option.getD_some] at h1 h2
      obtain ⟨hcore, -, hn, -⟩ := generateCore_eq_some hg
      have hchain := genMonths_chain (mkGenCtx team sy sm rand)
        (sortedEmployees_ids_nodup hnodup) (desirableShiftsOf_nodup team) rfl
        (Nat.pos_of_ne_zero hn) (List.range months)
        (initStates (mkGenCtx team sy sm rand).all_employees) []
        (fun e he => by simp [initStates_was_false])
      exact floaterChain_extract (mkGenCtx team sy sm rand) _ [] hchain k m1 m2
        (hcore ▸ h1) (hcore ▸ h2) x hx1 hx2

theorem no_adjacent_floaters_witness :
    (exEmp 4 "d" 2) ∈ monthFloatersE
      ((((generateCore exTeamFloat 2 2025 1 exRand).getD [])[0]?.getD ("", [])).2) ∧
    (exEmp 4 "d" 2) ∈ monthFloatersE
      ((((generateCore exTeamFloat 2 2025 1 exRand).getD [])[1]?.getD ("", [])).2) ∧
    ((teamFloaterCandidates exTeamFloat).filter
      (fun e => ¬ e ∈ monthFloatersE
        ((((generateCore exTeamFloat 2 2025 1 exRand).getD [])[0]?.getD ("", [])).2))).length
      < numFloatersOf exTeamFloat := by
  refine ⟨by decide, by decide, ?_⟩
  exact no_adjacent_floaters exTeamFloat 2 2025 1 exRand (by decide) 0
    (((generateCore exTeamFloat 2 2025 1 exRand).getD [])[0]?.getD ("", []))
    (((generateCore exTeamFloat 2 2025 1 exRand).getD [])[1]?.getD ("", []))
    (exEmp 4 "d" 2) (by decide) (by decide) (by decide) (by decide)

/-- C1 counterexample: for a 5-shift team the generated month's shift keys
are Morning, Afternoon, Evening, Night, Early Morning, which differs from
the spec's canonical catalog ordering (Early Morning first) filtered to the
template. -/
theorem month_shift_keys_catalog_counterexample :
    ((generate_monthly_assignments exTeam5 1 2025 1 exRand).getD []).map
        (fun m => m.2.map Prod.fst) =
      [["Morning", "Afternoon", "Evening", "Night", "Early Morning"]] ∧
    ["Morning", "Afternoon", "Evening", "Night", "Early Morning"] ≠
      specCatalogOrder.filter (fun s => s ∈ shiftsInTemplate exTeam5) :=
  ⟨by decide, by decide⟩

theorem maximalRuns_cons_head (p : String × String) (rest : List (String × String)) :
    ∃ t rs, maximalRuns (p :: rest) = (p :: t) :: rs := by
  cases hmr : maximalRuns rest with
  | nil => exact ⟨[], [], by rw [maximalRuns, hmr]⟩
  | cons r rs =>
      by_cases h : (r.headD ("", "")).2 = p.2
      · exact ⟨r, rs, by rw [maximalRuns, hmr]; simp only []; rw [if_pos h]⟩
      · exact ⟨[], r :: rs, by rw [maximalRuns, hmr]; simp only []; rw [if_neg h]⟩

theorem maximalRuns_cons_attach (p : String × String) (rest : List (String × String)) :
    maximalRuns (p :: rest) = attachRun [p] (maximalRuns rest) := by
  cases hmr : maximalRuns rest with
  | nil => rw [maximalRuns, hmr, attachRun]
  | cons r rs =>
      have hgl : ([p].getLastD ("", "")) = p := rfl
      rw [maximalRuns, hmr, attachRun, hgl]
      simp only []
      by_cases h : (r.headD ("", "")).2 = p.2
      · rw [if_pos h, if_pos h, List.singleton_append]
      · rw [if_neg h, if_neg h]

theorem attachRun_singleton_head (p : String × String)
    (X : List (List (String × String))) :
    ∃ t rs, attachRun [p] X = (p :: t) :: rs := by
  cases X with
  | nil => exact ⟨[], [], rfl⟩
  | cons r rs =>
      by_cases h : (r.headD ("", "")).2 = ([p].getLastD ("", "")).2
      · exact ⟨r, rs, by rw [attachRun, if_pos h, List.singleton_append]⟩
      · exact ⟨[], r :: rs, by rw [attachRun, if_neg h]⟩

theorem attachRun_cons_pos (cur : List (String × String)) (r : List (String × String))
    (rs : List (List (String × String)))
    (h : (r.headD ("", "")).2 = (cur.getLastD ("", "")).2) :
    attachRun cur (r :: rs) = (cur ++ r) :: rs := by
  rw [attachRun]
  rw [if_pos h]

theorem attachRun_cons_neg (cur : List (String × String)) (r : List (String × String))
    (rs : List (List (String × String)))
    (h : ¬ (r.headD ("", "")).2 = (cur.getLastD ("", "")).2) :
    attachRun cur (r :: rs) = cur :: r :: rs := by
  rw [attachRun]
  rw [if_neg h]

theorem attachRun_assoc (cur : List (String × String)) (p : String × String)
    (hs : (cur.getLastD ("", "")).2 = p.2) (X : List (List (String × String))) :
    attachRun cur (attachRun [p] X) = attachRun (cur ++ [p]) X := by
  have hlp : ((cur ++ [p]).getLastD ("", "")) = p := by
    rw [List.getLastD_eq_getLast?, List.getLast?_concat]
    rfl
  cases X with
  | nil =>
      rw [show attachRun [p] ([] : List (List (String × String))) = [[p]] from rfl]
      rw [attachRun_cons_pos cur [p] [] (by rw [hs]; rfl)]
      rfl
  | cons r rs =>
      by_cases h : (r.headD ("", "")).2 = p.2
      · rw [attachRun_cons_pos [p] r rs (by rw [h]; rfl)]
        rw [show ([p] ++ r : List (String × String)) = p :: r from rfl]
        rw [attachRun_cons_pos cur (p :: r) rs (by rw [hs]; rfl)]
        rw [attachRun_cons_pos (cur ++ [p]) r rs (by rw [hlp]; exact h)]
        rw [List.append_assoc]
        rfl
      · rw [attachRun_cons_neg [p] r rs (by rw [show ([p].getLastD ("", "")) = p from rfl]; exact h)]
        rw [attachRun_cons_pos cur [p] (r :: rs) (by rw [hs]; rfl)]
        rw [attachRun_cons_neg (cur ++ [p]) r rs (by rw [hlp]; exact h)]

theorem collectPeriods_attach :
    ∀ (l : List (String × String)) (cur : List (String × String)), cur ≠ [] →
      collectPeriods cur l
        = (attachRun cur (maximalRuns l)).filter (fun r => 1 < r.length) := by
  intro l
  induction l with
  | nil =>
      intro cur hc
      rw [collectPeriods, show maximalRuns [] = [] from rfl, attachRun]
      by_cases h : 1 < cur.length
      · rw [if_pos h]
        simp [h]
      · rw [if_neg h]
        simp [h]
  | cons q rest ih =>
      intro cur hc
      obtain ⟨m, s⟩ := q
      cases hlast : cur.getLast? with
      | none => exact absurd (List.getLast?_eq_none_iff.mp hlast) hc
      | some lst =>
          have hgld : cur.getLastD ("", "") = lst := by
            rw [List.getLastD_eq_getLast?, hlast]
            rfl
          rw [collectPeriods, hlast]
          simp only []
          by_cases hs : lst.2 = s
          · rw [if_pos hs]
            rw [ih (cur ++ [(m, s)]) (by simp)]
            rw [maximalRuns_cons_attach,
              attachRun_assoc cur (m, s) (by rw [hgld]; exact hs)]
          · rw [if_neg hs]
            rw [ih [(m, s)] (by simp)]
            rw [maximalRuns_cons_attach]
            obtain ⟨t, rs2, hat⟩ :=
              attachRun_singleton_head (m, s) (maximalRuns rest)
            rw [hat]
            rw [attachRun_cons_neg cur ((m, s) :: t) rs2
              (by rw [hgld]; simpa using fun hh => hs hh.symm)]
            rw [List.filter_cons]
            by_cases hlen : 1 < cur.length
            · simp [hlen, List.filter_cons]
            · simp [hlen, List.filter_cons]

theorem collectPeriods_eq_maximalRuns (l : List (String × String)) :
    collectPeriods [] l = (maximalRuns l).filter (fun r => 1 < r.length) := by
  cases l with
  | nil => rfl
  | cons p rest =>
      obtain ⟨m, s⟩ := p
      rw [collectPeriods, show ([] : List (String × String)).getLast? = none from rfl]
      rw [collectPeriods_attach rest [(m, s)] (by simp), ← maximalRuns_cons_attach]

theorem maximalRuns_flatten (l : List (String × String)) :
    (maximalRuns l).flatten = l := by
  induction l with
  | nil => rfl
  | cons p rest ih =>
      cases hmr : maximalRuns rest with
      | nil =>
          rw [maximalRuns, hmr]
          simp only []
          rw [hmr] at ih
          simp at ih
          simp [← ih]
      | cons r rs =>
          rw [maximalRuns, hmr]
          simp only []
          rw [hmr] at ih
          by_cases h : (r.headD ("", "")).2 = p.2
          · rw [if_pos h]
            rw [List.flatten_cons] at ih ⊢
            rw [show ((p :: r : List (String × String))) ++ rs.flatten
                = p :: (r ++ rs.flatten) from rfl, ih]
          · rw [if_neg h]
            rw [List.flatten_cons, List.flatten_cons, List.singleton_append]
            rw [List.flatten_cons] at ih
            rw [ih]

theorem maximalRuns_adjacent_ne (l : List (String × String)) :
    List.Chain' (fun r1 r2 => (r1.headD ("", "")).2 ≠ (r2.headD ("", "")).2)
      (maximalRuns l) := by
  induction l with
  | nil => simp [maximalRuns]
  | cons p rest ih =>
      cases hmr : maximalRuns rest with
      | nil =>
          rw [maximalRuns, hmr]
          simp
      | cons r rs =>
          rw [maximalRuns, hmr]
          simp only []
          rw [hmr] at ih
          by_cases h : (r.headD ("", "")).2 = p.2
          · rw [if_pos h]
            cases rs with
            | nil => simp
            | cons r2 rs2 =>
                rw [List.chain'_cons] at ih ⊢
                refine ⟨?_, ih.2⟩
                have h1 := ih.1
                rw [h] at h1
                simpa using h1
          · rw [if_neg h]
            rw [List.chain'_cons]
            refine ⟨?_, ih⟩
            intro hh
            rw [List.headD_cons] at hh
            exact h hh.symm

theorem maximalRuns_const (l : List (String × String)) :
    ∀ r ∈ maximalRuns l, r ≠ [] ∧ ∀ q ∈ r, q.2 = (r.headD ("", "")).2 := by
  induction l with
  | nil => simp [maximalRuns]
  | cons p rest ih =>
      intro r0 hr0
      cases hmr : maximalRuns rest with
      | nil =>
          rw [maximalRuns, hmr] at hr0
          simp only [List.mem_singleton] at hr0
          subst hr0
          exact ⟨by simp, by simp⟩
      | cons r rs =>
          rw [maximalRuns, hmr] at hr0
          simp only [] at hr0
          rw [hmr] at ih
          by_cases h : (r.headD ("", "")).2 = p.2
          · rw [if_pos h] at hr0
            rcases List.mem_cons.mp hr0 with h1 | h1
            · subst h1
              refine ⟨by simp, ?_⟩
              intro q hq
              rcases List.mem_cons.mp hq with h2 | h2
              · subst h2; rfl
              · have hir := ih r (List.mem_cons_self _ _)
                have := hir.2 q h2
                rw [this, h]
                rfl
            · exact ih r0 (List.mem_cons_of_mem _ h1)
          · rw [if_neg h] at hr0
            rcases List.mem_cons.mp hr0 with h1 | h1
            · subst h1
              exact ⟨by simp, by simp⟩
            · exact ih r0 h1

theorem filterMap_filter_none {α β : Type} (g : α → Option β) (q : α → Bool)
    (l : List α) (h : ∀ a ∈ l, q a = false → g a = none) :
    (l.filter q).filterMap g = l.filterMap g := by
  induction l with
  | nil => rfl
  | cons x xs ih =>
      have hrest : ∀ a ∈ xs, q a = false → g a = none :=
        fun a ha => h a (List.mem_cons_of_mem _ ha)
      rw [List.filter_cons]
      by_cases hq : q x = true
      · rw [if_pos hq, List.filterMap_cons, List.filterMap_cons, ih hrest]
      · have hgx : g x = none := h x (List.mem_cons_self _ _)
          (by cases hb : q x
              · rfl
              · exact absurd hb hq)
        rw [if_neg hq, List.filterMap_cons, hgx, ih hrest]

theorem mem_upsertAssoc {α β : Type} [DecidableEq α] {k : α} {v : β} :
    ∀ {l : List (α × β)} {q : α × β}, q ∈ upsertAssoc k v l → q = (k, v) ∨ q ∈ l := by
  intro l
  induction l with
  | nil =>
      intro q hq
      rw [upsertAssoc] at hq
      left
      simpa using hq
  | cons p rest ih =>
      intro q hq
      obtain ⟨k2, v2⟩ := p
      rw [upsertAssoc] at hq
      by_cases hk : k2 = k
      · rw [if_pos hk] at hq
        rcases List.mem_cons.mp hq with h1 | h1
        · left; rw [h1, hk]
        · right; exact List.mem_cons_of_mem _ h1
      · rw [if_neg hk] at hq
        rcases List.mem_cons.mp hq with h1 | h1
        · right; rw [h1]; exact List.mem_cons_self _ _
        · rcases ih h1 with h2 | h2
          · left; exact h2
          · right; exact List.mem_cons_of_mem _ h2

theorem employeeMapping_fold_stability (info : List EmpInfo) :
    ∀ (es : List EmpInfo) (acc : List (String × EmpMapData)),
      (∀ q ∈ acc, q.2.stability_months = teamRankToStability q.2.team_rank) →
      ∀ q ∈ es.foldl (fun acc e =>
          let rank := levelToTeamRank (teamLevels info) e.hierarchy_level
          upsertAssoc e.name
            ⟨e.hierarchy_level, rank, teamRankToStability rank, e.designation⟩ acc)
        acc,
        q.2.stability_months = teamRankToStability q.2.team_rank := by
  intro es
  induction es with
  | nil => intro acc hacc q hq; exact hacc q hq
  | cons e es ih =>
      intro acc hacc q hq
      rw [List.foldl_cons] at hq
      refine ih _ ?_ q hq
      intro q2 hq2
      rcases mem_upsertAssoc hq2 with h | h
      · rw [h]
      · exact hacc q2 h

theorem employeeMapping_stability (info : List EmpInfo) :
    ∀ q ∈ employeeMapping info,
      q.2.stability_months = teamRankToStability q.2.team_rank :=
  employeeMapping_fold_stability info info [] (by simp)

theorem teamRankToStability_pos (r : Nat) : 1 ≤ teamRankToStability r := by
  unfold teamRankToStability
  split_ifs <;> omega

theorem mem_match_rule4 {o : Option Nat} {shift month : String} {staffLen : Nat}
    {v : Violation}
    (h : v ∈ (match o with
      | some p =>
          if p ≠ 0 ∧ staffLen ≠ p then [Violation.rule4 shift month staffLen p] else []
      | none => ([] : List Violation))) : v.isRule1 = false := by
  cases o with
  | none => simp at h
  | some p =>
      simp only [] at h
      by_cases hc : p ≠ 0 ∧ staffLen ≠ p
      · rw [if_pos hc] at h
        rw [List.mem_singleton.mp h]
        rfl
      · rw [if_neg hc] at h
        simp at h

theorem processShift_viols (mapping : List (String × EmpMapData)) (numRanks : Nat)
    (month shift : String) (sd : VShift) (st : TravState) :
    ∀ v ∈ (processShift mapping numRanks month shift sd st).viols,
      v ∈ st.viols ∨ v.isRule1 = false := by
  intro v hv
  unfold processShift at hv
  simp only [] at hv
  rcases List.mem_append.mp hv with h | h
  · rcases List.mem_append.mp h with h1 | h1
    · left; exact h1
    · right
      exact mem_match_rule4 h1
  · right
    by_cases hc : 1 < sd.assigned_staff.length ∧
        ((sd.assigned_staff.filterMap
          (fun nm => (mapping.lookup nm).map (fun d => d.team_rank))).dedup).length = 1 ∧
        1 < numRanks
    · rw [if_pos hc] at h
      rw [List.mem_singleton.mp h]
      rfl
    · rw [if_neg hc] at h
      simp at h

theorem foldl_viols_carry {α : Type} (P : Violation → Prop)
    (f : TravState → α → TravState)
    (hf : ∀ st a, ∀ v ∈ (f st a).viols, v ∈ st.viols ∨ P v) :
    ∀ (l : List α) (st : TravState), ∀ v ∈ (l.foldl f st).viols,
      v ∈ st.viols ∨ P v := by
  intro l
  induction l with
  | nil => intro st v hv; left; exact hv
  | cons x xs ih =>
      intro st v hv
      rw [List.foldl_cons] at hv
      rcases ih (f st x) v hv with h | h
      · exact hf st x v h
      · right; exact h

theorem traverseSchedule_viols (mapping : List (String × EmpMapData))
    (numRanks : Nat) (sched : VSchedule) :
    ∀ v ∈ (traverseSchedule mapping numRanks sched).viols, v.isRule1 = false := by
  intro v hv
  unfold traverseSchedule at hv
  have hinner : ∀ (a : String × VMonth) (st : TravState),
      ∀ v ∈ (a.2.foldl (fun st q => processShift mapping numRanks a.1 q.1 q.2 st)
        st).viols, v ∈ st.viols ∨ v.isRule1 = false :=
    fun a st v hv =>
      foldl_viols_carry (fun v => v.isRule1 = false)
        (fun st q => processShift mapping numRanks a.1 q.1 q.2 st)
        (fun st q v hv2 => processShift_viols mapping numRanks a.1 q.1 q.2 st v hv2)
        a.2 st v hv
  have houter := foldl_viols_carry (fun v => v.isRule1 = false)
    (fun st p => p.2.foldl (fun st q => processShift mapping numRanks p.1 q.1 q.2 st) st)
    (fun st a v hv2 => hinner a st v hv2)
    sched ⟨none, [], []⟩ v hv
  rcases houter with h | h
  · simp at h
  · exact h

theorem rule2Violations_not_rule1 (mapping : List (String × EmpMapData))
    (tr : Tracking) :
    ∀ v ∈ rule2Violations mapping tr, v.isRule1 = false := by
  intro v hv
  unfold rule2Violations at hv
  obtain ⟨p, hp, hv2⟩ := List.mem_flatMap.mp hv
  split at hv2
  · simp at hv2
  · rename_i d hd
    by_cases hr : d.team_rank = 1
    · rw [if_pos hr] at hv2
      obtain ⟨q, hq, hqe⟩ := List.mem_filterMap.mp hv2
      by_cases hro : q.2.role = Role.floater
      · rw [if_pos hro] at hqe
        injection hqe with hh
        rw [← hh]
        rfl
      · rw [if_neg hro] at hqe
        exact absurd hqe (by simp)
    · rw [if_neg hr] at hv2
      simp at hv2

theorem rule3Violations_not_rule1 (monthNames : List String) (tr : Tracking) :
    ∀ v ∈ rule3Violations monthNames tr, v.isRule1 = false := by
  intro v hv
  unfold rule3Violations at hv
  obtain ⟨p, hp, hv2⟩ := List.mem_flatMap.mp hv
  simp only [] at hv2
  split at hv2
  · split at hv2
    · rw [List.mem_singleton.mp hv2]
      rfl
    · simp at hv2
  · simp at hv2

theorem rule1Violations_isRule1 (mapping : List (String × EmpMapData))
    (monthNames : List String) (tr : Tracking) :
    ∀ v ∈ rule1Violations mapping monthNames tr, v.isRule1 = true := by
  intro v hv
  unfold rule1Violations at hv
  obtain ⟨p, hp, hv2⟩ := List.mem_flatMap.mp hv
  split at hv2
  · simp at hv2
  · unfold rule1ViolationsFor at hv2
    obtain ⟨run, hrun, hre⟩ := List.mem_filterMap.mp hv2
    split at hre
    · injection hre with hh
      rw [← hh]
      rfl
    · exact absurd hre (by simp)

theorem validateTyped_rule1_filter (sched : VSchedule) (info : List EmpInfo) :
    (validateTyped sched info).violations.filter (fun v => v.isRule1)
      = rule1Violations (employeeMapping info) (sched.map (fun p => p.1))
          (traverseSchedule (employeeMapping info) (teamLevels info).length
            sched).track := by
  unfold validateTyped
  simp only []
  rw [List.filter_append, List.filter_append, List.filter_append]
  have h1 : (traverseSchedule (employeeMapping info) (teamLevels info).length
      sched).viols.filter (fun v => v.isRule1) = [] := by
    rw [List.filter_eq_nil_iff]
    intro v hv
    simp [traverseSchedule_viols _ _ _ v hv]
  have h2 : (rule2Violations (employeeMapping info)
      (traverseSchedule (employeeMapping info) (teamLevels info).length
        sched).track).filter (fun v => v.isRule1) = [] := by
    rw [List.filter_eq_nil_iff]
    intro v hv
    simp [rule2Violations_not_rule1 _ _ v hv]
  have h3 : (rule3Violations (sched.map (fun p => p.1))
      (traverseSchedule (employeeMapping info) (teamLevels info).length
        sched).track).filter (fun v => v.isRule1) = [] := by
    rw [List.filter_eq_nil_iff]
    intro v hv
    simp [rule3Violations_not_rule1 _ _ v hv]
  have h4 : (rule1Violations (employeeMapping info) (sched.map (fun p => p.1))
      (traverseSchedule (employeeMapping info) (teamLevels info).length
        sched).track).filter (fun v => v.isRule1)
      = rule1Violations (employeeMapping info) (sched.map (fun p => p.1))
          (traverseSchedule (employeeMapping info) (teamLevels info).length
            sched).track := by
    rw [List.filter_eq_self]
    intro v hv
    exact rule1Violations_isRule1 _ _ _ v hv
  rw [h1, h2, h3, h4]
  simp

theorem rule1ViolationsFor_eq (monthNames : List String) (nm : String)
    (d : EmpMapData) (mm : MonthMap) (hstab : 1 ≤ d.stability_months) :
    rule1ViolationsFor monthNames nm d mm
      = (maximalRuns (assignedShiftsOf monthNames mm)).filterMap
          (fun p =>
            if d.stability_months < p.length then some (mkRule1 nm d p) else none) := by
  unfold rule1ViolationsFor
  rw [collectPeriods_eq_maximalRuns]
  refine filterMap_filter_none _ _ _ ?_
  intro run hrun hlen
  have hl : ¬ (1 < run.length) := by simpa using hlen
  rw [if_neg (by omega)]

theorem flatMap_congr {α β : Type} {l : List α} {f g : α → List β}
    (h : ∀ a ∈ l, f a = g a) : l.flatMap f = l.flatMap g := by
  rw [List.flatMap_def, List.flatMap_def, List.map_congr_left h]

/-- C2 (amended): for every well-formed schedule document and non-empty team
hierarchy info given to `validate_schedule_programmatically`, the Rule 1
violations of the report are exactly one violation per maximal run of
unchanged shift in each employee's sequence of *assigned* months — months in
which the employee is not assigned staff do not break a run — whose length
exceeds the employee's team-rank stability limit (3 months for rank 1, 2 for
rank 2, 1 for rank ≥ 3, first conjunct); each violation cites the run's
shift, start month, end month, run length and the limit (the fields of
`mkRule1`), and runs within the limit produce nothing.  The claim's reading
— runs of calendar-adjacent months — fails on the code: see the
counterexample. -/
theorem rule1_exactly_one_per_run (j : Json) (info : List EmpInfo)
    (sched : VSchedule) (hinfo : info ≠ [])
    (hdec : decodeSchedule j = .ok sched) :
    (∀ q ∈ employeeMapping info,
      q.2.stability_months =
        (if q.2.team_rank = 1 then 3 else if q.2.team_rank = 2 then 2 else 1)) ∧
    (validate_schedule_programmatically j info).violations.filter (fun v => v.isRule1)
      = (traverseSchedule (employeeMapping info) (teamLevels info).length
          sched).track.flatMap
          (fun p =>
            match (employeeMapping info).lookup p.1 with
            | none => []
            | some d =>
                (maximalRuns (assignedShiftsOf (sched.map (fun q => q.1)) p.2)).filterMap
                  (fun run =>
                    if d.stability_months < run.length then some (mkRule1 p.1 d run)
                    else none)) := by
  constructor
  · intro q hq
    exact employeeMapping_stability info q hq
  · have hne : info.isEmpty = false := by simp [List.isEmpty_iff, hinfo]
    have hval : validate_schedule_programmatically j info = validateTyped sched info := by
      unfold validate_schedule_programmatically
      rw [if_neg (by simp [hne]), hdec]
    rw [hval, validateTyped_rule1_filter]
    unfold rule1Violations
    refine flatMap_congr ?_
    intro p hp
    cases hl : (employeeMapping info).lookup p.1 with
    | none => rfl
    | some d =>
        simp only []
        have hd : (p.1, d) ∈ employeeMapping info := mem_of_lookup_eq_some hl
        have hs := employeeMapping_stability info _ hd
        have hpos : 1 ≤ d.stability_months := by
          rw [hs]
          exact teamRankToStability_pos _
        exact rule1ViolationsFor_eq _ _ _ _ hpos

theorem rule1_exactly_one_per_run_witness :
    (validate_schedule_programmatically exSchedGap exInfoABC).violations.filter
        (fun v => v.isRule1)
      = (traverseSchedule (employeeMapping exInfoABC) (teamLevels exInfoABC).length
          exSchedGapTyped).track.flatMap
          (fun p =>
            match (employeeMapping exInfoABC).lookup p.1 with
            | none => []
            | some d =>
                (maximalRuns (assignedShiftsOf (exSchedGapTyped.map (fun q => q.1))
                  p.2)).filterMap
                  (fun run =>
                    if d.stability_months < run.length then some (mkRule1 p.1 d run)
                    else none)) :=
  (rule1_exactly_one_per_run exSchedGap exInfoABC exSchedGapTyped (by decide) rfl).2

/-- C2 counterexample: in `exSchedGap`, employee C (team rank 3, stability
limit 1) is assigned to Morning in M1 and M3 but floats in M2: C has no run
of *adjacent* months with role assigned and unchanged shift longer than 1
(last conjunct), so under the claim no stability violation may be emitted
for C — yet the validator merges M1 and M3 across the gap into one period
and emits a Rule 1 violation citing the run M1..M3 of length 2 against
limit 1. -/
theorem rule1_adjacent_counterexample :
    Violation.rule1 "C" 3 3 "Morning" "M1" "M3" 2 1 ∈
      (validate_schedule_programmatically exSchedGap exInfoABC).violations ∧
    ((employeeMapping exInfoABC).lookup "C").map (fun d => d.stability_months)
      = some 1 ∧
    decodeSchedule exSchedGap = .ok exSchedGapTyped ∧
    (adjacentRuns (assignedByMonth (exSchedGapTyped.map (fun p => p.1))
        (((traverseSchedule (employeeMapping exInfoABC) (teamLevels exInfoABC).length
          exSchedGapTyped).track.lookup "C").getD []))).all
      (fun run => run.length ≤ 1) = true :=
  ⟨by decide, by decide, rfl, by decide⟩
